import Mathlib
/-!
A verification development for the kd-tree library.

The Rust sources are shallowly embedded:

* Scalars are modelled by a bundle `KOps` of the operations the generic code
  uses (`partial_cmp`, arithmetic, `is_negative`, and self-inequality, which is
  how the code detects NaN-like values).  Two instantiations are provided:
  `iOps` over `Int` (a totally ordered scalar) and `fOps` over `FScalar`
  (an integer extended with a NaN-like element, exhibiting the partial order
  of floating point values).
* Points are lists of scalars, and a tree is a list of points satisfying the
  implicit kd-tree structure invariant `isKd`.
* Slices are lists; in-place rearrangement becomes returning a new list.
* The recursive traversals descend on strictly shorter sub-slices.  They are
  written structurally over an explicit `Nat` bound on the slice length
  (instantiated with the length itself by the public wrappers), which keeps
  every definition computable by the kernel; `*_irrel` lemmas show the bound
  does not affect the result, recovering the natural recursion equations.
-/

/-- Operations the Rust generic code uses on a scalar type: `partial_cmp`,
ring operations, `num_traits::Signed::is_negative`, and self-inequality
`x != x` (true exactly for NaN-like values). -/

structure KOps (α : Type) where
  pcmp : α → α → Option Ordering
  add : α → α → α
  sub : α → α → α
  mul : α → α → α
  zero : α
  isNeg : α → Bool
  neSelf : α → Bool

/-- Rust `a < b` on a `PartialOrd` scalar: `partial_cmp` is `Some(Less)`. -/

def KOps.ltB (ops : KOps α) (a b : α) : Bool := ops.pcmp a b == some .lt

/-- Rust `a > b` on a `PartialOrd` scalar: `partial_cmp` is `Some(Greater)`. -/

def KOps.gtB (ops : KOps α) (a b : α) : Bool := ops.pcmp a b == some .gt

/-- Rust `a <= b` on a `PartialOrd` scalar: `partial_cmp` is `Some(Less)` or
`Some(Equal)`. -/

def KOps.leB (ops : KOps α) (a b : α) : Bool :=
  ops.pcmp a b == some .lt || ops.pcmp a b == some .eq

/-- `Int` scalars: the total order, where `partial_cmp` never returns `None`
and `x != x` is always false. -/

def iOps : KOps Int where
  pcmp a b := some (if a < b then .lt else if b < a then .gt else .eq)
  add a b := a + b
  sub a b := a - b
  mul a b := a * b
  zero := 0
  isNeg a := a < 0
  neSelf _ := false

/-- A floating-point-like scalar: an integer value or a NaN-like element that
compares with nothing (`partial_cmp` returns `None`) and is unequal to itself. -/

inductive FScalar : Type where
  | num (v : Int)
  | nan
deriving DecidableEq, Repr

/-- `partial_cmp` for `FScalar`: numeric values compare as integers, any
comparison involving the NaN-like element returns `None`. -/

def FScalar.pcmp : FScalar → FScalar → Option Ordering
  | .num a, .num b => some (if a < b then .lt else if b < a then .gt else .eq)
  | _, _ => none

/-- Arithmetic on `FScalar`: NaN-like values propagate, as in IEEE floats. -/

def FScalar.add : FScalar → FScalar → FScalar
  | .num a, .num b => .num (a + b)
  | _, _ => .nan

/-- Subtraction on `FScalar`; NaN-like values propagate. -/

def FScalar.sub : FScalar → FScalar → FScalar
  | .num a, .num b => .num (a - b)
  | _, _ => .nan

/-- Multiplication on `FScalar`; NaN-like values propagate. -/

def FScalar.mul : FScalar → FScalar → FScalar
  | .num a, .num b => .num (a * b)
  | _, _ => .nan

/-- `FScalar` scalars: the partial order of floating point values, where the
NaN-like element makes `partial_cmp` return `None`, `x != x` hold, and
`is_negative` return false. -/

def fOps : KOps FScalar where
  pcmp := FScalar.pcmp
  add := FScalar.add
  sub := FScalar.sub
  mul := FScalar.mul
  zero := .num 0
  isNeg a := match a with
    | .num v => v < 0
    | .nan => false
  neSelf a := match a with
    | .num _ => false
    | .nan => true

/-- `OrdHelper::cmp` from `sort.rs`: use `partial_cmp` when it answers;
otherwise order the NaN-like operand to the end (greater), and treat two
mutually non-comparable operands as equal. -/

def ordHelperCmp (ops : KOps α) (a b : α) : Ordering :=
  match ops.pcmp a b with
  | some o => o
  | none =>
    match ops.neSelf a, ops.neSelf b with
    | true, false => .gt
    | false, true => .lt
    | _, _ => .eq

/-- The non-strict order induced by the Ordering Surrogate `OrdHelper`:
`a` is not greater than `b`. -/

def ordHelperLe (ops : KOps α) (a b : α) : Bool :=
  !(ordHelperCmp ops a b == .gt)

/-- A point is a list of scalars; `KdPoint::at` reads one coordinate. -/

abbrev Pt (α : Type) := List α

/-- `KdPoint::at`: the coordinate of a point on one axis. -/

def att (ops : KOps α) (p : Pt α) (k : Nat) : α := p.getD k ops.zero

/-- The distance metric between two points: the sum over the axes of the
squared per-axis difference (`distance += diff * diff` over `0..dim`),
as in the `KdPoint` default and the loop in `within_radius` in `lib.rs`. -/

def distance_metric (ops : KOps α) (d : Nat) (p q : Pt α) : α :=
  (List.range d).foldl
    (fun acc k => ops.add acc (ops.mul (ops.sub (att ops p k) (att ops q k))
      (ops.sub (att ops p k) (att ops q k)))) ops.zero

/-- `KdPoint::from_distance_to_metric`: the per-axis-difference-to-metric
transform, defaulting to squaring. -/

def from_distance_to_metric (ops : KOps α) (x : α) : α := ops.mul x x

/-- `split_at_mid` from `split_at_mid.rs`: an empty slice yields
`(empty, None, empty)`; otherwise the slice is split at index `len / 2`.
The unchecked accesses are modelled by `take`, `getElem?` and `drop`;
`split_at_mid_some` shows the access in the middle is in bounds. -/

def split_at_mid (items : List β) : List β × Option β × List β :=
  if items.isEmpty then ([], none, [])
  else (items.take (items.length / 2), items[items.length / 2]?,
        items.drop (items.length / 2 + 1))

/-- Sorted insertion used to model sorted-order maintenance: insert `x` at the
first position whose element is not below it. -/

def insertLe (le : β → β → Bool) (x : β) : List β → List β
  | [] => [x]
  | y :: ys => if le x y then x :: y :: ys else y :: insertLe le x ys

/-- Insertion sort by a boolean comparison.  This models
`select_nth_unstable_by_key` from `sort.rs`: fully sorting the sub-range
satisfies that function's contract (the element of rank `i` ends at index `i`,
everything before it compares less-or-equal, everything after greater-or-equal). -/

def sortLe (le : β → β → Bool) : List β → List β
  | [] => []
  | x :: xs => insertLe le x (sortLe le xs)

/-- The list is weakly sorted by `le`. -/

def SortedB (le : β → β → Bool) (l : List β) : Prop :=
  l.Pairwise (fun a b => le a b = true)

/-- The Ordering Surrogate applied to the coordinates of two points on one
axis: the key comparison `OrdHelper(item.at(axis))` used by `kd_sort_by`. -/

def keyCmp (ops : KOps α) (axis : Nat) (p q : Pt α) : Ordering :=
  ordHelperCmp ops (att ops p axis) (att ops q axis)

/-- The non-strict key order on points induced by `keyCmp`. -/

def keyLe (ops : KOps α) (axis : Nat) (p q : Pt α) : Bool :=
  !(keyCmp ops axis p q == .gt)

/-- The recursion of `kd_sort_by` from `sort.rs`, structurally over a bound on
the slice length.  A sub-range of length at least 2 is rearranged by
`select_nth_unstable_by_key(len / 2, OrdHelper(at(axis)))` — modelled by
`sortLe` on the axis key, which satisfies that function's contract — and the
two strictly smaller sides are sorted recursively with the next axis.
The parallel `rayon::join` dispatch computes the same two independent
sub-results, so it is modelled by the two recursive calls. -/

def kd_sort_go (ops : KOps α) (d : Nat) : Nat → List (Pt α) → Nat → List (Pt α)
  | 0, items, _ => items
  | fuel+1, items, axis =>
    if 2 ≤ items.length then
      let s := sortLe (keyLe ops axis) items
      let m := items.length / 2
      kd_sort_go ops d fuel (s.take m) ((axis + 1) % d) ++
        s.getD m [] :: kd_sort_go ops d fuel (s.drop (m + 1)) ((axis + 1) % d)
    else items

/-- `kd_sort_by` from `sort.rs`: build the implicit kd-tree in place,
starting at axis 0. -/

def kd_sort_by (ops : KOps α) (d : Nat) (items : List (Pt α)) : List (Pt α) :=
  kd_sort_go ops d items.length items 0

/-- The ImplicitTree structure invariant, structurally over a bound on the
length: every sub-range reached by the midpoint decomposition has its
midpoint element greater-or-equal (under the Ordering Surrogate on the
sub-range's axis) than everything in its left half and less-or-equal than
everything in its right half, the axis advancing by one modulo `d` per level. -/

def isKdGo (ops : KOps α) (d : Nat) : Nat → List (Pt α) → Nat → Bool
  | 0, _, _ => true
  | fuel+1, l, axis =>
    if l.length < 2 then true
    else
      ((l.take (l.length / 2)).all fun x =>
        !(keyCmp ops axis x (l.getD (l.length / 2) []) == .gt)) &&
      ((l.drop (l.length / 2 + 1)).all fun x =>
        !(keyCmp ops axis (l.getD (l.length / 2) []) x == .gt)) &&
      isKdGo ops d fuel (l.take (l.length / 2)) ((axis + 1) % d) &&
      isKdGo ops d fuel (l.drop (l.length / 2 + 1)) ((axis + 1) % d)

/-- The ImplicitTree invariant of a list, rooted at a given axis. -/

def isKd (ops : KOps α) (d : Nat) (l : List (Pt α)) (axis : Nat) : Bool :=
  isKdGo ops d l.length l axis

/-- Modelled from the spec: the single-nearest recursion of `kd_nearest`.
The file `nearest.rs` is not under `src/`; only its caller `KdSliceN::nearest`
in `lib.rs` is.  Following spec section 4.3: visit the node, replace the best
when the node's distance metric is strictly smaller, descend first into the
half on the query's side of the splitting plane, and descend into the
opposite half only when the metric transform of the perpendicular distance to
the splitting value is strictly smaller than the current best. -/
def kd_nearest_go (ops : KOps α) (d : Nat) (q : Pt α) :
    Nat → List (Pt α) → Nat → Pt α × α → Pt α × α
  | 0, _, _, best => best
  | fuel+1, kdtree, axis, best =>
    match split_at_mid kdtree with
    | (_, none, _) => best
    | (before, some item, after) =>
      let dm := distance_metric ops d item q
      let best1 := if ops.ltB dm best.2 then (item, dm) else best
      let diff := ops.sub (att ops q axis) (att ops item axis)
      let best2 := if ops.isNeg diff
        then kd_nearest_go ops d q fuel before ((axis + 1) % d) best1
        else kd_nearest_go ops d q fuel after ((axis + 1) % d) best1
      let far := if ops.isNeg diff then after else before
      if ops.ltB (from_distance_to_metric ops diff) best2.2 then
        kd_nearest_go ops d q fuel far ((axis + 1) % d) best2
      else best2

/-- Modelled from the spec: `kd_nearest` over a nonempty slice starts from the
root as the initial best candidate (the traversal visits the root first).
The empty case is unreachable: the caller checks for emptiness. -/
def kd_nearest (ops : KOps α) (d : Nat) (kdtree : List (Pt α)) (q : Pt α) :
    Pt α × α :=
  match split_at_mid kdtree with
  | (_, none, _) => ([], ops.zero)
  | (_, some item, _) =>
    kd_nearest_go ops d q kdtree.length kdtree 0 (item, distance_metric ops d item q)

/-- `KdSliceN::nearest` from `lib.rs` (lines 200-212): `None` on an empty
tree, otherwise the item closest to the query with its distance metric. -/
def nearest (ops : KOps α) (d : Nat) (tree : List (Pt α)) (q : Pt α) :
    Option (Pt α × α) :=
  if tree.isEmpty then none else some (kd_nearest ops d tree q)

/-- The buffer key order of `kd_nearests`: `OrdHelper` on the distance
metric of a candidate pair. -/
def bufLe (ops : KOps α) (a b : Pt α × α) : Bool := ordHelperLe ops a.2 b.2

/-- The recursion of `kd_nearests` from `nearests.rs` (lines 54-108) over a
buffer of capacity `cap`.  `nearests.last().unwrap()` is modelled by matching
on `getLast?`; its `none` case (modelled as `true`) is unreachable when the
capacity is at least 1, and is a fault in the Rust code (reachable only for
capacity 0).  `binary_search_by_key` on the `OrdHelper` of the metric
followed by `insert` at the returned index is modelled by sorted insertion at
the leftmost admissible index, a valid result of that search. -/
def kd_nearests_go (ops : KOps α) (d cap : Nat) (filt : Pt α → Bool) (q : Pt α) :
    Nat → List (Pt α) → Nat → List (Pt α × α) → List (Pt α × α)
  | 0, _, _, buf => buf
  | fuel+1, kdtree, axis, buf =>
    match split_at_mid kdtree with
    | (_, none, _) => buf
    | (before, some item, after) =>
      let dm := distance_metric ops d item q
      let buf1 :=
        if buf.length < cap ||
            (match buf.getLast? with
             | some worst => ops.ltB dm worst.2
             | none => true) then
          let buf2 := if buf.length == cap then buf.dropLast else buf
          if filt item then insertLe (bufLe ops) (item, dm) buf2 else buf2
        else buf
      let diff := ops.sub (att ops q axis) (att ops item axis)
      let buf3 := if ops.isNeg diff
        then kd_nearests_go ops d cap filt q fuel before ((axis + 1) % d) buf1
        else kd_nearests_go ops d cap filt q fuel after ((axis + 1) % d) buf1
      let far := if ops.isNeg diff then after else before
      if !far.isEmpty &&
          (match buf3.getLast? with
           | some mx => ops.ltB (from_distance_to_metric ops diff) mx.2
           | none => true) then
        kd_nearests_go ops d cap filt q fuel far ((axis + 1) % d) buf3
      else buf3

/-- `kd_nearests` from `nearests.rs`: run the recursion from the root at
axis 0 with an empty buffer of capacity `cap`. -/
def kd_nearests (ops : KOps α) (d cap : Nat) (filt : Pt α → Bool)
    (kdtree : List (Pt α)) (q : Pt α) : List (Pt α × α) :=
  kd_nearests_go ops d cap filt q kdtree.length kdtree 0 []

/-- `KdSliceN::nearests` from `lib.rs` (lines 272-281).  Modelled from the
spec for the buffer-setup glue, which is not under `src/`: a candidate buffer
of capacity `num` (spec section 4.4) and no filter predicate. -/
def nearests (ops : KOps α) (d : Nat) (tree : List (Pt α)) (q : Pt α)
    (num : Nat) : List (Pt α × α) :=
  kd_nearests ops d num (fun _ => true) tree q

/-- The recursion of `kd_within_by_cmp` from `within.rs` (lines 6-47): on
`Equal` the node is a hit when the remaining axes (checked cyclically from
the current one) all compare `Equal` and the final check passes, and both
halves are explored; on `Less` only the upper half can contain hits, on
`Greater` only the lower half. -/
def kd_within_by_cmp_go (ops : KOps α) (d : Nat) (cmpf : α → Nat → Ordering)
    (final_check : Pt α → Bool) : Nat → List (Pt α) → Nat → List (Pt α)
  | 0, _, _ => []
  | fuel+1, kdtree, axis =>
    match split_at_mid kdtree with
    | (_, none, _) => []
    | (lower, some item, upper) =>
      match cmpf (att ops item axis) axis with
      | .eq =>
        (if ((List.range' 1 (d - 1)).map (fun i => (axis + i) % d)).all
              (fun i => cmpf (att ops item i) i == .eq) && final_check item
         then [item] else []) ++
        kd_within_by_cmp_go ops d cmpf final_check fuel lower ((axis + 1) % d) ++
        kd_within_by_cmp_go ops d cmpf final_check fuel upper ((axis + 1) % d)
      | .lt => kd_within_by_cmp_go ops d cmpf final_check fuel upper ((axis + 1) % d)
      | .gt => kd_within_by_cmp_go ops d cmpf final_check fuel lower ((axis + 1) % d)

/-- `kd_within_by_cmp` from `within.rs`: run the recursion from the root at
axis 0 with an empty result collection. -/
def kd_within_by_cmp (ops : KOps α) (d : Nat) (cmpf : α → Nat → Ordering)
    (final_check : Pt α → Bool) (kdtree : List (Pt α)) : List (Pt α) :=
  kd_within_by_cmp_go ops d cmpf final_check kdtree.length kdtree 0

/-- `KdSliceN::within_by` from `lib.rs` (lines 283-285).  Modelled from the
spec for `kd_within_by`, which is not under `src/`: the pruning traversal
with the given per-axis comparison and no extra final check. -/
def within_by (ops : KOps α) (d : Nat) (tree : List (Pt α))
    (cmpf : α → Nat → Ordering) : List (Pt α) :=
  kd_within_by_cmp ops d cmpf (fun _ => true) tree

/-- Modelled from the spec: `kd_within`, the box-query core called by
`KdSliceN::within`, is not under `src/`.  Following spec section 4.5: compare
the node coordinate against the box bounds on each axis — below the lower
bound is `Less`, above the upper bound is `Greater`, within bounds `Equal`. -/
def kd_within (ops : KOps α) (d : Nat) (tree : List (Pt α)) (lo hi : Pt α) :
    List (Pt α) :=
  kd_within_by_cmp ops d
    (fun a k => if ops.ltB a (att ops lo k) then .lt
      else if ops.gtB a (att ops hi k) then .gt else .eq)
    (fun _ => true) tree

/-- `KdSliceN::within` from `lib.rs` (lines 287-293): asserts that the first
corner is componentwise less-or-equal to the second and then runs the box
query.  A failed assertion is a Rust panic, modelled by `none`. -/
def within (ops : KOps α) (d : Nat) (tree : List (Pt α)) (lo hi : Pt α) :
    Option (List (Pt α)) :=
  if (List.range d).all (fun k => ops.leB (att ops lo k) (att ops hi k)) then
    some (kd_within ops d tree lo hi)
  else none

/-- `KdSliceN::within_radius` from `lib.rs` (lines 295-322): a box query with
per-axis window `center - radius ..= center + radius`, then retain only the
items whose distance metric to the center is strictly below
`radius * radius`. -/
def within_radius (ops : KOps α) (d : Nat) (tree : List (Pt α)) (center : Pt α)
    (r : α) : List (Pt α) :=
  (within_by ops d tree (fun a k =>
      if ops.ltB a (ops.sub (att ops center k) r) then .lt
      else if ops.gtB a (ops.add (att ops center k) r) then .gt
      else .eq)).filter
    (fun item => ops.ltB (distance_metric ops d item center) (ops.mul r r))

/-- The brute-force box filter following the spec's words: every axis
coordinate lies in the closed interval between the two corners. -/
def inBoxB (ops : KOps α) (d : Nat) (lo hi p : Pt α) : Bool :=
  (List.range d).all fun k =>
    ops.leB (att ops lo k) (att ops p k) && ops.leB (att ops p k) (att ops hi k)

/-- The brute-force open-ball filter following the spec's words: the distance
metric to the center is strictly below the metric transform of the radius. -/
def inBallB (ops : KOps α) (d : Nat) (center : Pt α) (r : α) (p : Pt α) : Bool :=
  ops.ltB (distance_metric ops d p center) (ops.mul r r)

theorem split_at_mid_nil : split_at_mid ([] : List β) = ([], none, []) := rfl

theorem split_at_mid_of_ne_nil {l : List β} (hm : l.length / 2 < l.length) :
    split_at_mid l = (l.take (l.length / 2), some (l.get ⟨l.length / 2, hm⟩),
      l.drop (l.length / 2 + 1)) := by
  have he : l.isEmpty = false := by
    cases l with
    | nil => simp at hm
    | cons a t => rfl
  unfold split_at_mid
  rw [he]
  simp [List.getElem?_eq_getElem hm]

theorem split_at_mid_some {l lo hi : List β} {x : β}
    (h : split_at_mid l = (lo, some x, hi)) :
    lo.length < l.length ∧ hi.length < l.length ∧ l = lo ++ x :: hi ∧
      lo.length = l.length / 2 ∧ lo = l.take (l.length / 2) ∧
      hi = l.drop (l.length / 2 + 1) := by
  unfold split_at_mid at h
  by_cases he : l.isEmpty
  · simp [he] at h
  · simp [he] at h
    have hlen : 0 < l.length := by
      cases l with
      | nil => simp at he
      | cons a t => simp
    have hm : l.length / 2 < l.length := by omega
    obtain ⟨h1, h2, h3⟩ := h
    have hx : l[l.length / 2]? = some x := h2
    rw [List.getElem?_eq_some] at hx
    obtain ⟨hlt, hget⟩ := hx
    refine ⟨?_, ?_, ?_, ?_, h1.symm, h3.symm⟩
    · rw [← h1]; simp; omega
    · rw [← h3]; simp; omega
    · rw [← h1, ← h3, ← hget, ← List.drop_eq_getElem_cons hm]
      exact (List.take_append_drop ..).symm
    · rw [← h1]; simp; omega

theorem split_at_mid_none {l lo hi : List β}
    (h : split_at_mid l = (lo, none, hi)) : l = [] := by
  cases l with
  | nil => rfl
  | cons a t =>
    rw [split_at_mid_of_ne_nil (l := a :: t) (by simp; omega)] at h
    simp at h

theorem insertLe_perm (le : β → β → Bool) (x : β) (l : List β) :
    (insertLe le x l).Perm (x :: l) := by
  induction l with
  | nil => exact List.Perm.refl _
  | cons y ys ih =>
    unfold insertLe
    by_cases h : le x y
    · rw [if_pos h]
    · rw [if_neg h]
      exact (List.Perm.cons y ih).trans (List.Perm.swap x y ys)

theorem sortLe_perm (le : β → β → Bool) (l : List β) : (sortLe le l).Perm l := by
  induction l with
  | nil => exact List.Perm.refl _
  | cons x xs ih =>
    exact (insertLe_perm le x (sortLe le xs)).trans (List.Perm.cons x ih)

theorem sortLe_length (le : β → β → Bool) (l : List β) :
    (sortLe le l).length = l.length :=
  (sortLe_perm le l).length_eq

theorem insertLe_sorted (le : β → β → Bool)
    (htot : ∀ a b, le a b = true ∨ le b a = true)
    (htr : ∀ a b c, le a b = true → le b c = true → le a c = true)
    (x : β) (l : List β) (hs : SortedB le l) : SortedB le (insertLe le x l) := by
  induction l with
  | nil => simp [insertLe, SortedB]
  | cons y ys ih =>
    unfold insertLe
    rcases List.pairwise_cons.mp hs with ⟨hy, hys⟩
    by_cases h : le x y
    · rw [if_pos h]
      refine List.pairwise_cons.mpr ⟨?_, hs⟩
      intro b hb
      rcases List.mem_cons.mp hb with rfl | hb
      · exact h
      · exact htr x y b h (hy b hb)
    · rw [if_neg h]
      refine List.pairwise_cons.mpr ⟨?_, ih hys⟩
      intro b hb
      have hb2 : b ∈ x :: ys := (insertLe_perm le x ys).mem_iff.mp hb
      rcases List.mem_cons.mp hb2 with hbx | hb2
      · rcases htot x y with hxy | hyx
        · exact absurd hxy h
        · rw [hbx]; exact hyx
      · exact hy b hb2

theorem sortLe_sorted (le : β → β → Bool)
    (htot : ∀ a b, le a b = true ∨ le b a = true)
    (htr : ∀ a b c, le a b = true → le b c = true → le a c = true)
    (l : List β) : SortedB le (sortLe le l) := by
  induction l with
  | nil => simp [sortLe, SortedB]
  | cons x xs ih => exact insertLe_sorted le htot htr x (sortLe le xs) ih

theorem isKdGo_irrel (ops : KOps α) (d : Nat) : ∀ f1 f2 (l : List (Pt α)) axis,
    l.length ≤ f1 → l.length ≤ f2 →
    isKdGo ops d f1 l axis = isKdGo ops d f2 l axis := by
  intro f1
  induction f1 using Nat.strong_induction_on with
  | _ f1 ih =>
    intro f2 l axis h1 h2
    match f1, f2 with
    | 0, 0 => rfl
    | 0, f2+1 =>
      have : l = [] := by cases l <;> simp_all
      subst this
      simp [isKdGo]
    | f1+1, 0 =>
      have : l = [] := by cases l <;> simp_all
      subst this
      simp [isKdGo]
    | f1+1, f2+1 =>
      show isKdGo ops d (f1+1) l axis = isKdGo ops d (f2+1) l axis
      unfold isKdGo
      by_cases hlen : l.length < 2
      · rw [if_pos hlen, if_pos hlen]
      · rw [if_neg hlen, if_neg hlen]
        have htk : (l.take (l.length / 2)).length ≤ f1 := by simp; omega
        have hdr : (l.drop (l.length / 2 + 1)).length ≤ f1 := by simp; omega
        have htk2 : (l.take (l.length / 2)).length ≤ f2 := by simp; omega
        have hdr2 : (l.drop (l.length / 2 + 1)).length ≤ f2 := by simp; omega
        rw [ih f1 (by omega) f2 _ _ htk htk2, ih f1 (by omega) f2 _ _ hdr hdr2]

/-- The natural recursion equation of the invariant. -/
theorem isKd_eq (ops : KOps α) (d : Nat) (l : List (Pt α)) (axis : Nat) :
    isKd ops d l axis =
      if l.length < 2 then true
      else
        ((l.take (l.length / 2)).all fun x =>
          !(keyCmp ops axis x (l.getD (l.length / 2) []) == .gt)) &&
        ((l.drop (l.length / 2 + 1)).all fun x =>
          !(keyCmp ops axis (l.getD (l.length / 2) []) x == .gt)) &&
        isKd ops d (l.take (l.length / 2)) ((axis + 1) % d) &&
        isKd ops d (l.drop (l.length / 2 + 1)) ((axis + 1) % d) := by
  by_cases hlen : l.length < 2
  · rw [if_pos hlen]
    cases l with
    | nil => simp [isKd, isKdGo]
    | cons a t =>
      have : t = [] := by
        cases t with
        | nil => rfl
        | cons b u =>
          simp at hlen
          exact absurd hlen (by omega)
      subst this
      simp [isKd, isKdGo]
  · rw [if_neg hlen]
    obtain ⟨n, hn⟩ : ∃ n, l.length = n + 1 := ⟨l.length - 1, by omega⟩
    show isKdGo ops d l.length l axis = _
    conv_lhs => rw [hn]
    show (if l.length < 2 then true else _) = _
    rw [if_neg hlen]
    have e1 : isKdGo ops d n (l.take (l.length / 2)) ((axis + 1) % d) =
        isKd ops d (l.take (l.length / 2)) ((axis + 1) % d) :=
      isKdGo_irrel ops d n (l.take (l.length / 2)).length _ _
        (by simp; omega) (le_refl _)
    have e2 : isKdGo ops d n (l.drop (l.length / 2 + 1)) ((axis + 1) % d) =
        isKd ops d (l.drop (l.length / 2 + 1)) ((axis + 1) % d) :=
      isKdGo_irrel ops d n (l.drop (l.length / 2 + 1)).length _ _
        (by simp; omega) (le_refl _)
    rw [e1, e2]

theorem getD_append_cons (lo : List γ) (x y : γ) (hi : List γ) :
    (lo ++ x :: hi).getD lo.length y = x := by
  induction lo with
  | nil => rfl
  | cons a t ih => simpa using ih

theorem getD_append_cons_len (lo : List γ) (x y : γ) (hi : List γ) {n : Nat}
    (h : lo.length = n) : (lo ++ x :: hi).getD n y = x := by
  subst h
  exact getD_append_cons ..

/-- Unpacks the invariant at a node produced by `split_at_mid`. -/
theorem isKd_split (ops : KOps α) (d : Nat) {l lo hi : List (Pt α)} {x : Pt α}
    (axis : Nat) (hsp : split_at_mid l = (lo, some x, hi))
    (hkd : isKd ops d l axis = true) :
    (∀ y ∈ lo, ¬ keyCmp ops axis y x = .gt) ∧
    (∀ y ∈ hi, ¬ keyCmp ops axis x y = .gt) ∧
    isKd ops d lo ((axis + 1) % d) = true ∧
    isKd ops d hi ((axis + 1) % d) = true := by
  obtain ⟨hlo, hhi, hdec, hlolen, hlotk, hhidr⟩ := split_at_mid_some hsp
  have hllen : l.length = lo.length + 1 + hi.length := by
    rw [hdec]; simp; omega
  by_cases hlen : l.length < 2
  · have hne : l ≠ [] := by
      intro h
      rw [h] at hsp
      simp [split_at_mid] at hsp
    have h1 : l.length = 1 := by
      have := List.length_pos.mpr hne
      omega
    have hlo0 : lo = [] := List.eq_nil_of_length_eq_zero (by omega)
    have hhi0 : hi = [] := List.eq_nil_of_length_eq_zero (by omega)
    subst hlo0; subst hhi0
    refine ⟨by simp, by simp, ?_, ?_⟩ <;> simp [isKd, isKdGo]
  · rw [isKd_eq, if_neg hlen] at hkd
    have hx : l.getD (l.length / 2) [] = x := by
      rw [← hlolen]
      conv_lhs => rw [hdec]
      exact getD_append_cons ..
    rw [hx, ← hlotk, ← hhidr] at hkd
    simp only [Bool.and_eq_true, List.all_eq_true] at hkd
    obtain ⟨⟨⟨h1, h2⟩, h3⟩, h4⟩ := hkd
    refine ⟨?_, ?_, h3, h4⟩
    · intro y hy hcontra
      have := h1 y hy
      rw [hcontra] at this
      exact absurd this (by decide)
    · intro y hy hcontra
      have := h2 y hy
      rw [hcontra] at this
      exact absurd this (by decide)

theorem ordHelperCmp_iOps (a b : Int) :
    ordHelperCmp iOps a b = if a < b then .lt else if b < a then .gt else .eq := rfl

theorem intCmpNotGt (a b : Int) :
    ((!((if a < b then Ordering.lt else if b < a then Ordering.gt
      else Ordering.eq) == Ordering.gt)) = true) ↔ a ≤ b := by
  split_ifs with h1 h2
  · exact ⟨fun _ => by omega, fun _ => rfl⟩
  · exact ⟨fun hc => absurd hc (by decide), fun hh => absurd hh (by omega)⟩
  · exact ⟨fun _ => by omega, fun _ => rfl⟩

theorem keyCmp_iOps_not_gt {axis : Nat} {p q : Pt Int} :
    ¬ keyCmp iOps axis p q = .gt ↔ att iOps p axis ≤ att iOps q axis := by
  unfold keyCmp
  rw [ordHelperCmp_iOps]
  split_ifs with h1 h2
  · simp only [reduceCtorEq, not_false_eq_true, true_iff]; omega
  · simp only [not_true_eq_false, false_iff]; omega
  · simp only [reduceCtorEq, not_false_eq_true, true_iff]; omega

theorem keyLe_iOps {axis : Nat} {p q : Pt Int} :
    keyLe iOps axis p q = true ↔ att iOps p axis ≤ att iOps q axis := by
  unfold keyLe keyCmp
  rw [ordHelperCmp_iOps]
  exact intCmpNotGt ..

theorem ordHelperLe_iOps_tot (a b : Int) :
    ordHelperLe iOps a b = true ∨ ordHelperLe iOps b a = true := by
  unfold ordHelperLe
  rw [ordHelperCmp_iOps, ordHelperCmp_iOps, intCmpNotGt, intCmpNotGt]
  omega

theorem ordHelperLe_iOps_trans (a b c : Int) :
    ordHelperLe iOps a b = true → ordHelperLe iOps b c = true →
    ordHelperLe iOps a c = true := by
  unfold ordHelperLe
  rw [ordHelperCmp_iOps, ordHelperCmp_iOps, ordHelperCmp_iOps,
    intCmpNotGt, intCmpNotGt, intCmpNotGt]
  omega

theorem ordHelperCmp_fOps_num (x y : Int) :
    ordHelperCmp fOps (.num x) (.num y) =
      if x < y then .lt else if y < x then .gt else .eq := rfl

theorem ordHelperCmp_fOps_nan_num (y : Int) :
    ordHelperCmp fOps .nan (.num y) = .gt := rfl

theorem ordHelperCmp_fOps_num_nan (x : Int) :
    ordHelperCmp fOps (.num x) .nan = .lt := rfl

theorem ordHelperCmp_fOps_nan_nan : ordHelperCmp fOps .nan .nan = .eq := rfl

theorem ordHelperLe_fOps_tot (a b : FScalar) :
    ordHelperLe fOps a b = true ∨ ordHelperLe fOps b a = true := by
  unfold ordHelperLe
  cases a with
  | nan => cases b with
    | nan => left; rfl
    | num y => right; rfl
  | num x => cases b with
    | nan => left; rfl
    | num y =>
      rw [ordHelperCmp_fOps_num, ordHelperCmp_fOps_num, intCmpNotGt, intCmpNotGt]
      omega

theorem ordHelperLe_fOps_trans (a b c : FScalar) :
    ordHelperLe fOps a b = true → ordHelperLe fOps b c = true →
    ordHelperLe fOps a c = true := by
  unfold ordHelperLe
  cases a <;> cases b <;> cases c <;>
    simp only [ordHelperCmp_fOps_num, ordHelperCmp_fOps_nan_num,
      ordHelperCmp_fOps_num_nan, ordHelperCmp_fOps_nan_nan] <;>
    first
    | (intro h1 h2; rfl)
    | (intro h1 h2; exact absurd h1 (by decide))
    | (intro h1 h2; exact absurd h2 (by decide))
    | (rw [intCmpNotGt, intCmpNotGt, intCmpNotGt]; omega)

theorem keyLe_eq_ordHelperLe (ops : KOps α) (axis : Nat) (p q : Pt α) :
    keyLe ops axis p q = ordHelperLe ops (att ops p axis) (att ops q axis) := rfl

theorem kd_sort_go_spec (ops : KOps α)
    (htot : ∀ a b : α, ordHelperLe ops a b = true ∨ ordHelperLe ops b a = true)
    (htr : ∀ a b c : α, ordHelperLe ops a b = true → ordHelperLe ops b c = true →
      ordHelperLe ops a c = true)
    (d : Nat) :
    ∀ fuel (items : List (Pt α)) axis, items.length ≤ fuel →
      (kd_sort_go ops d fuel items axis).Perm items ∧
      isKd ops d (kd_sort_go ops d fuel items axis) axis = true := by
  intro fuel
  induction fuel with
  | zero =>
    intro items axis hle
    have : items = [] := by cases items <;> simp_all
    subst this
    exact ⟨List.Perm.refl _, by simp [isKd, isKdGo, kd_sort_go]⟩
  | succ fuel ih =>
    intro items axis hle
    by_cases h2 : 2 ≤ items.length
    case neg =>
      have hunf : kd_sort_go ops d (fuel+1) items axis = items := by
        unfold kd_sort_go; rw [if_neg h2]
      rw [hunf]
      refine ⟨List.Perm.refl _, ?_⟩
      rw [isKd_eq, if_pos (by omega)]
    case pos =>
      have hkeytot : ∀ p q : Pt α, keyLe ops axis p q = true ∨ keyLe ops axis q p = true :=
        fun p q => by
          rw [keyLe_eq_ordHelperLe, keyLe_eq_ordHelperLe]; exact htot ..
      have hkeytr : ∀ p q r : Pt α, keyLe ops axis p q = true →
          keyLe ops axis q r = true → keyLe ops axis p r = true :=
        fun p q r hpq hqr => by
          rw [keyLe_eq_ordHelperLe] at hpq hqr ⊢
          exact htr _ _ _ hpq hqr
      have hslen : (sortLe (keyLe ops axis) items).length = items.length :=
        sortLe_length ..
      have hm : items.length / 2 < items.length := by omega
      set s := sortLe (keyLe ops axis) items with hsdef
      set m := items.length / 2 with hmdef
      have hms : m < s.length := by rw [hslen]; exact hm
      have hsdec : s = s.take m ++ s.getD m [] :: s.drop (m+1) := by
        conv_lhs => rw [← List.take_append_drop m s]
        congr 1
        rw [List.drop_eq_getElem_cons hms, List.getD_eq_getElem s [] hms]
      have hsort : SortedB (keyLe ops axis) s := sortLe_sorted _ hkeytot hkeytr items
      have hunf : kd_sort_go ops d (fuel+1) items axis =
          kd_sort_go ops d fuel (s.take m) ((axis + 1) % d) ++
            s.getD m [] ::
              kd_sort_go ops d fuel (s.drop (m+1)) ((axis + 1) % d) := by
        conv_lhs => rw [kd_sort_go]
        rw [if_pos h2]
      obtain ⟨hLperm, hLkd⟩ := ih (s.take m) ((axis + 1) % d)
        (by rw [List.length_take, hslen]; omega)
      obtain ⟨hRperm, hRkd⟩ := ih (s.drop (m+1)) ((axis + 1) % d)
        (by rw [List.length_drop, hslen]; omega)
      rw [hunf]
      have hLtlen : (kd_sort_go ops d fuel (s.take m) ((axis + 1) % d)).length = m :=
        hLperm.length_eq.trans (by rw [List.length_take, hslen]; omega)
      have hRtlen : (kd_sort_go ops d fuel (s.drop (m+1)) ((axis + 1) % d)).length =
          items.length - (m + 1) :=
        hRperm.length_eq.trans (by rw [List.length_drop, hslen])
      have hperm : (kd_sort_go ops d fuel (s.take m) ((axis + 1) % d) ++
          s.getD m [] :: kd_sort_go ops d fuel (s.drop (m+1)) ((axis + 1) % d)).Perm
            items := by
        have h1 := List.Perm.append hLperm (List.Perm.cons (s.getD m []) hRperm)
        refine h1.trans ?_
        rw [← hsdec]
        exact sortLe_perm ..
      refine ⟨hperm, ?_⟩
      have hreslen : (kd_sort_go ops d fuel (s.take m) ((axis + 1) % d) ++
          s.getD m [] :: kd_sort_go ops d fuel (s.drop (m+1)) ((axis + 1) % d)).length =
            items.length := hperm.length_eq
      rw [isKd_eq]
      rw [if_neg (by rw [hreslen]; omega)]
      have hmid : (kd_sort_go ops d fuel (s.take m) ((axis + 1) % d) ++
          s.getD m [] :: kd_sort_go ops d fuel (s.drop (m+1)) ((axis + 1) % d)).length / 2
            = m := by rw [hreslen]
      rw [hmid]
      have htake : (kd_sort_go ops d fuel (s.take m) ((axis + 1) % d) ++
          s.getD m [] :: kd_sort_go ops d fuel (s.drop (m+1)) ((axis + 1) % d)).take m =
            kd_sort_go ops d fuel (s.take m) ((axis + 1) % d) :=
        List.take_left' hLtlen
      have hgd : (kd_sort_go ops d fuel (s.take m) ((axis + 1) % d) ++
          s.getD m [] :: kd_sort_go ops d fuel (s.drop (m+1)) ((axis + 1) % d)).getD m [] =
            s.getD m [] :=
        getD_append_cons_len _ _ _ _ hLtlen
      have hdrop : (kd_sort_go ops d fuel (s.take m) ((axis + 1) % d) ++
          s.getD m [] :: kd_sort_go ops d fuel (s.drop (m+1)) ((axis + 1) % d)).drop (m+1) =
            kd_sort_go ops d fuel (s.drop (m+1)) ((axis + 1) % d) := by
        have hcat : kd_sort_go ops d fuel (s.take m) ((axis + 1) % d) ++
            s.getD m [] :: kd_sort_go ops d fuel (s.drop (m+1)) ((axis + 1) % d) =
            (kd_sort_go ops d fuel (s.take m) ((axis + 1) % d) ++ [s.getD m []]) ++
              kd_sort_go ops d fuel (s.drop (m+1)) ((axis + 1) % d) := by simp
        rw [hcat]
        exact List.drop_left' (by simp [hLtlen])
      rw [htake, hgd, hdrop]
      simp only [Bool.and_eq_true, List.all_eq_true]
      have hpw := hsort
      rw [hsdec] at hpw
      rcases List.pairwise_append.mp hpw with ⟨pw1, pw2, hcross⟩
      refine ⟨⟨⟨?_, ?_⟩, hLkd⟩, hRkd⟩
      · intro y hy
        have hy0 : y ∈ s.take m := hLperm.mem_iff.mp hy
        have : keyLe ops axis y (s.getD m []) = true :=
          hcross y hy0 (s.getD m []) (List.mem_cons_self ..)
        exact this
      · intro y hy
        have hy0 : y ∈ s.drop (m+1) := hRperm.mem_iff.mp hy
        rcases List.pairwise_cons.mp pw2 with ⟨hpiv, _⟩
        exact hpiv y hy0

/-- C7: for every input collection of points (over the NaN-capable scalar),
after the builder `kd_sort_by` returns, every contiguous sub-range reached by
the recursive midpoint decomposition starting at axis 0 has its midpoint
element at position `len / 2` greater-or-equal, under the Ordering Surrogate
on the sub-range's splitting axis, than every element of the left half and
less-or-equal than every element of the right half, the splitting axis
advancing to `(a + 1) % D` at each recursion level — that is, the collection
satisfies the ImplicitTree invariant `isKd`. -/
theorem c7_builder_invariant (d : Nat) (items : List (Pt FScalar)) :
    isKd fOps d (kd_sort_by fOps d items) 0 = true :=
  (kd_sort_go_spec fOps ordHelperLe_fOps_tot ordHelperLe_fOps_trans d
    items.length items 0 (le_refl _)).2

/-- C10: `split_at_mid` (and its mutable twin, which computes the same
partition) is total and its unchecked accesses are in bounds: it returns
`(empty, none, empty)` exactly when the slice is empty, and otherwise the
midpoint index `len / 2` is strictly less than `len`, it returns the elements
before the midpoint, `some` of the midpoint element, and the elements after
it, reassembling to the input, with both side sub-slices strictly shorter
than the input (which makes the recursive traversals well-founded). -/
theorem c10_split_at_mid {β : Type} (l : List β) :
    (split_at_mid l = ([], none, []) ↔ l = []) ∧
    (l ≠ [] → ∃ hm : l.length / 2 < l.length,
      split_at_mid l = (l.take (l.length / 2), some (l.get ⟨l.length / 2, hm⟩),
        l.drop (l.length / 2 + 1)) ∧
      l = l.take (l.length / 2) ++ l.get ⟨l.length / 2, hm⟩ ::
        l.drop (l.length / 2 + 1) ∧
      (l.take (l.length / 2)).length < l.length ∧
      (l.drop (l.length / 2 + 1)).length < l.length) := by
  constructor
  · constructor
    · intro h
      by_contra hne
      have hp : 0 < l.length := List.length_pos.mpr hne
      have hm : l.length / 2 < l.length := by omega
      rw [split_at_mid_of_ne_nil hm] at h
      simp at h
    · intro h
      subst h
      rfl
  · intro hne
    have hp : 0 < l.length := List.length_pos.mpr hne
    have hm : l.length / 2 < l.length := by omega
    refine ⟨hm, split_at_mid_of_ne_nil hm, ?_, by simp; omega, by simp; omega⟩
    obtain ⟨_, _, hdec, _, _, _⟩ :=
      split_at_mid_some (split_at_mid_of_ne_nil hm)
    conv_lhs => rw [hdec]

theorem c10_witness :
    (split_at_mid ([5, 7, 9] : List Int) = ([], none, []) ↔
      ([5, 7, 9] : List Int) = []) ∧
    (∃ hm : ([5, 7, 9] : List Int).length / 2 < ([5, 7, 9] : List Int).length,
      split_at_mid ([5, 7, 9] : List Int) =
        (([5, 7, 9] : List Int).take (([5, 7, 9] : List Int).length / 2),
          some (([5, 7, 9] : List Int).get ⟨([5, 7, 9] : List Int).length / 2, hm⟩),
          ([5, 7, 9] : List Int).drop (([5, 7, 9] : List Int).length / 2 + 1)) ∧
      ([5, 7, 9] : List Int) =
        ([5, 7, 9] : List Int).take (([5, 7, 9] : List Int).length / 2) ++
          ([5, 7, 9] : List Int).get ⟨([5, 7, 9] : List Int).length / 2, hm⟩ ::
            ([5, 7, 9] : List Int).drop (([5, 7, 9] : List Int).length / 2 + 1) ∧
      (([5, 7, 9] : List Int).take (([5, 7, 9] : List Int).length / 2)).length <
        ([5, 7, 9] : List Int).length ∧
      (([5, 7, 9] : List Int).drop (([5, 7, 9] : List Int).length / 2 + 1)).length <
        ([5, 7, 9] : List Int).length) :=
  ⟨(c10_split_at_mid ([5, 7, 9] : List Int)).1,
    (c10_split_at_mid ([5, 7, 9] : List Int)).2 (by decide)⟩

/-- C8: the Ordering Surrogate's comparison `OrdHelper::cmp`, over a scalar
with the partial order of floating point values, is a total and transitive
order in which a non-comparable (NaN-like) operand compares greater than any
comparable value, two mutually non-comparable values compare equal, and which
agrees with the natural partial comparison whenever both operands are
comparable. -/
theorem c8_ordering_surrogate :
    (∀ a b : FScalar, ∀ o : Ordering, fOps.pcmp a b = some o →
      ordHelperCmp fOps a b = o) ∧
    (∀ a b : FScalar, fOps.neSelf a = true → fOps.neSelf b = false →
      ordHelperCmp fOps a b = .gt) ∧
    (∀ a b : FScalar, fOps.neSelf a = true → fOps.neSelf b = true →
      ordHelperCmp fOps a b = .eq) ∧
    (∀ a b : FScalar, ordHelperLe fOps a b = true ∨ ordHelperLe fOps b a = true) ∧
    (∀ a b c : FScalar, ordHelperLe fOps a b = true →
      ordHelperLe fOps b c = true → ordHelperLe fOps a c = true) := by
  refine ⟨?_, ?_, ?_, ordHelperLe_fOps_tot, ordHelperLe_fOps_trans⟩
  · intro a b o h
    unfold ordHelperCmp
    rw [h]
  · intro a b ha hb
    cases a with
    | num x => simp [fOps] at ha
    | nan =>
      cases b with
      | num y => rfl
      | nan => simp [fOps] at hb
  · intro a b ha hb
    cases a with
    | num x => simp [fOps] at ha
    | nan =>
      cases b with
      | num y => simp [fOps] at hb
      | nan => rfl

theorem c8_witness :
    ordHelperCmp fOps (.num 1) (.num 2) = .lt ∧
    ordHelperCmp fOps .nan (.num 5) = .gt ∧
    ordHelperCmp fOps .nan .nan = .eq ∧
    (ordHelperLe fOps (.num 3) .nan = true ∨ ordHelperLe fOps .nan (.num 3) = true) ∧
    ordHelperLe fOps (.num 1) .nan = true :=
  ⟨c8_ordering_surrogate.1 (.num 1) (.num 2) .lt (by decide),
    c8_ordering_surrogate.2.1 .nan (.num 5) (by decide) (by decide),
    c8_ordering_surrogate.2.2.1 .nan .nan (by decide) (by decide),
    c8_ordering_surrogate.2.2.2.1 (.num 3) .nan,
    c8_ordering_surrogate.2.2.2.2 (.num 1) (.num 2) .nan (by decide) (by decide)⟩

theorem foldl_add_int (f : Nat → Int) (l : List Nat) (c : Int) :
    l.foldl (fun acc k => acc + f k) c = c + (l.map f).sum := by
  induction l generalizing c with
  | nil => simp
  | cons a t ih => simp [ih]; ring

theorem distance_metric_iOps (d : Nat) (p q : Pt Int) :
    distance_metric iOps d p q =
      ((List.range d).map fun k => (att iOps p k - att iOps q k) *
        (att iOps p k - att iOps q k)).sum := by
  unfold distance_metric
  rw [show (fun (acc : Int) (k : Nat) => iOps.add acc
      (iOps.mul (iOps.sub (att iOps p k) (att iOps q k))
        (iOps.sub (att iOps p k) (att iOps q k)))) =
    fun (acc : Int) (k : Nat) => acc + (att iOps p k - att iOps q k) *
      (att iOps p k - att iOps q k) from rfl]
  rw [show (iOps.zero : Int) = 0 from rfl]
  rw [foldl_add_int]
  simp

theorem distance_metric_nonneg (d : Nat) (p q : Pt Int) :
    0 ≤ distance_metric iOps d p q := by
  rw [distance_metric_iOps]
  apply List.sum_nonneg
  intro x hx
  obtain ⟨k, _, rfl⟩ := List.mem_map.mp hx
  exact mul_self_nonneg _

theorem term_le_distance_metric {d k : Nat} (hk : k < d) (p q : Pt Int) :
    (att iOps p k - att iOps q k) * (att iOps p k - att iOps q k) ≤
      distance_metric iOps d p q := by
  rw [distance_metric_iOps]
  apply List.single_le_sum
  · intro x hx
    obtain ⟨j, _, rfl⟩ := List.mem_map.mp hx
    exact mul_self_nonneg _
  · exact List.mem_map.mpr ⟨k, List.mem_range.mpr hk, rfl⟩

theorem ltB_iOps {a b : Int} : iOps.ltB a b = true ↔ a < b := by
  unfold KOps.ltB
  have hp : iOps.pcmp a b =
      some (if a < b then .lt else if b < a then .gt else .eq) := rfl
  rw [hp]
  split_ifs with h1 h2
  · exact ⟨fun _ => h1, fun _ => rfl⟩
  · exact ⟨fun hc => absurd hc (by decide), fun hh => absurd hh (by omega)⟩
  · exact ⟨fun hc => absurd hc (by decide), fun hh => absurd hh (by omega)⟩

theorem gtB_iOps {a b : Int} : iOps.gtB a b = true ↔ b < a := by
  unfold KOps.gtB
  have hp : iOps.pcmp a b =
      some (if a < b then .lt else if b < a then .gt else .eq) := rfl
  rw [hp]
  split_ifs with h1 h2
  · exact ⟨fun hc => absurd hc (by decide), fun hh => absurd hh (by omega)⟩
  · exact ⟨fun _ => h2, fun _ => rfl⟩
  · exact ⟨fun hc => absurd hc (by decide), fun hh => absurd hh (by omega)⟩

theorem leB_iOps {a b : Int} : iOps.leB a b = true ↔ a ≤ b := by
  unfold KOps.leB
  have hp : iOps.pcmp a b =
      some (if a < b then .lt else if b < a then .gt else .eq) := rfl
  rw [hp]
  split_ifs with h1 h2
  · exact ⟨fun _ => by omega, fun _ => by decide⟩
  · exact ⟨fun hc => absurd hc (by decide), fun hh => absurd hh (by omega)⟩
  · exact ⟨fun _ => by omega, fun _ => by decide⟩

theorem isNeg_iOps {a : Int} : iOps.isNeg a = true ↔ a < 0 := by
  show decide (a < 0) = true ↔ a < 0
  simp

theorem ltB_iOps_false {a b : Int} : iOps.ltB a b = false ↔ b ≤ a := by
  constructor
  · intro h
    by_contra hc
    have : iOps.ltB a b = true := ltB_iOps.mpr (by omega)
    rw [h] at this
    exact absurd this (by decide)
  · intro h
    cases hv : iOps.ltB a b with
    | false => rfl
    | true => exact absurd (ltB_iOps.mp hv) (by omega)

theorem kd_nearest_go_succ_none (ops : KOps α) (d : Nat) (q : Pt α)
    {tree lo hi : List (Pt α)} (hsp : split_at_mid tree = (lo, none, hi))
    (fuel axis : Nat) (best : Pt α × α) :
    kd_nearest_go ops d q (fuel+1) tree axis best = best := by
  have h : tree = [] := split_at_mid_none hsp
  subst h
  rfl

theorem kd_nearest_go_succ_some (ops : KOps α) (d : Nat) (q : Pt α)
    {tree before after : List (Pt α)} {item : Pt α}
    (hsp : split_at_mid tree = (before, some item, after))
    (fuel axis : Nat) (best : Pt α × α) :
    kd_nearest_go ops d q (fuel+1) tree axis best =
      (let dm := distance_metric ops d item q
       let best1 := if ops.ltB dm best.2 then (item, dm) else best
       let diff := ops.sub (att ops q axis) (att ops item axis)
       let best2 := if ops.isNeg diff
         then kd_nearest_go ops d q fuel before ((axis + 1) % d) best1
         else kd_nearest_go ops d q fuel after ((axis + 1) % d) best1
       let far := if ops.isNeg diff then after else before
       if ops.ltB (from_distance_to_metric ops diff) best2.2 then
         kd_nearest_go ops d q fuel far ((axis + 1) % d) best2
       else best2) := by
  conv_lhs => rw [kd_nearest_go]
  rw [hsp]

theorem kd_nearest_go_sound (d : Nat) (q : Pt Int) :
    ∀ fuel (tree : List (Pt Int)) (axis : Nat) (best : Pt Int × Int),
      (kd_nearest_go iOps d q fuel tree axis best = best ∨
        ((kd_nearest_go iOps d q fuel tree axis best).1 ∈ tree ∧
         (kd_nearest_go iOps d q fuel tree axis best).2 =
           distance_metric iOps d (kd_nearest_go iOps d q fuel tree axis best).1 q)) ∧
      (kd_nearest_go iOps d q fuel tree axis best).2 ≤ best.2 := by
  intro fuel
  induction fuel with
  | zero => intro tree axis best; exact ⟨Or.inl rfl, le_refl _⟩
  | succ fuel ih =>
    intro tree axis best
    cases hsp0 : split_at_mid tree with
    | mk lo0 rest => cases rest with
      | mk xo hi0 => cases xo with
        | none =>
          rw [kd_nearest_go_succ_none iOps d q hsp0]
          exact ⟨Or.inl rfl, le_refl _⟩
        | some item =>
          obtain ⟨_, _, hdec, _, _, _⟩ := split_at_mid_some hsp0
          rw [kd_nearest_go_succ_some iOps d q hsp0]
          dsimp only
          set dm := distance_metric iOps d item q with hdm
          set best1 := if iOps.ltB dm best.2 then (item, dm) else best with hbest1
          set diff := iOps.sub (att iOps q axis) (att iOps item axis) with hdiff
          set best2 := if iOps.isNeg diff
            then kd_nearest_go iOps d q fuel lo0 ((axis + 1) % d) best1
            else kd_nearest_go iOps d q fuel hi0 ((axis + 1) % d) best1 with hbest2
          set far := if iOps.isNeg diff then hi0 else lo0 with hfar
          have hb1 : (best1 = best ∨ (best1.1 ∈ tree ∧ best1.2 =
              distance_metric iOps d best1.1 q)) ∧ best1.2 ≤ best.2 := by
            rw [hbest1]
            by_cases hc : iOps.ltB dm best.2 = true
            · rw [if_pos hc]
              refine ⟨Or.inr ⟨?_, hdm⟩, le_of_lt (ltB_iOps.mp hc)⟩
              rw [hdec]
              exact List.mem_append_right _ (List.mem_cons_self ..)
            · rw [if_neg hc]
              exact ⟨Or.inl rfl, le_refl _⟩
          have hsub : (if iOps.isNeg diff then lo0 else hi0) = lo0 ∨
              (if iOps.isNeg diff then lo0 else hi0) = hi0 := by
            by_cases hn : iOps.isNeg diff = true
            · exact Or.inl (if_pos hn)
            · exact Or.inr (if_neg hn)
          have hb2 : (best2 = best1 ∨ (best2.1 ∈ tree ∧ best2.2 =
              distance_metric iOps d best2.1 q)) ∧ best2.2 ≤ best1.2 := by
            rw [hbest2]
            by_cases hn : iOps.isNeg diff = true
            · rw [if_pos hn]
              rcases ih lo0 ((axis + 1) % d) best1 with ⟨hin, hle⟩
              refine ⟨?_, hle⟩
              rcases hin with h | ⟨hm, he⟩
              · exact Or.inl h
              · refine Or.inr ⟨?_, he⟩
                rw [hdec]
                exact List.mem_append_left _ hm
            · rw [if_neg hn]
              rcases ih hi0 ((axis + 1) % d) best1 with ⟨hin, hle⟩
              refine ⟨?_, hle⟩
              rcases hin with h | ⟨hm, he⟩
              · exact Or.inl h
              · refine Or.inr ⟨?_, he⟩
                rw [hdec]
                exact List.mem_append_right _ (List.mem_cons_of_mem _ hm)
          by_cases hp : iOps.ltB (from_distance_to_metric iOps diff) best2.2 = true
          · rw [if_pos hp]
            rcases ih far ((axis + 1) % d) best2 with ⟨hin, hle⟩
            have hfinal2 : (kd_nearest_go iOps d q fuel far ((axis + 1) % d) best2).2 ≤
                best.2 := le_trans hle (le_trans hb2.2 hb1.2)
            refine ⟨?_, hfinal2⟩
            rcases hin with h | ⟨hm, he⟩
            · rw [h]
              rcases hb2.1 with h2 | h2
              · rw [h2]
                rcases hb1.1 with h1 | h1
                · exact Or.inl h1
                · exact Or.inr h1
              · exact Or.inr h2
            · refine Or.inr ⟨?_, he⟩
              rw [hdec]
              by_cases hn : iOps.isNeg diff = true
              · have hfe : far = hi0 := by rw [hfar, if_pos hn]
                rw [hfe] at hm
                rw [hfe]
                exact List.mem_append_right _ (List.mem_cons_of_mem _ hm)
              · have hfe : far = lo0 := by rw [hfar, if_neg hn]
                rw [hfe] at hm
                rw [hfe]
                exact List.mem_append_left _ hm
          · rw [if_neg hp]
            refine ⟨?_, le_trans hb2.2 hb1.2⟩
            rcases hb2.1 with h2 | h2
            · rw [h2]
              rcases hb1.1 with h1 | h1
              · exact Or.inl h1
              · exact Or.inr h1
            · exact Or.inr h2

theorem far_bound {d axis : Nat} (hax : axis < d) (q item x : Pt Int)
    (hcase : (att iOps q axis < att iOps item axis ∧
        att iOps item axis ≤ att iOps x axis) ∨
      (att iOps item axis ≤ att iOps q axis ∧
        att iOps x axis ≤ att iOps item axis)) :
    (att iOps q axis - att iOps item axis) *
      (att iOps q axis - att iOps item axis) ≤ distance_metric iOps d x q := by
  have hterm := term_le_distance_metric hax x q
  rcases hcase with ⟨h1, h2⟩ | ⟨h1, h2⟩
  · calc (att iOps q axis - att iOps item axis) *
          (att iOps q axis - att iOps item axis)
        = (att iOps item axis - att iOps q axis) *
          (att iOps item axis - att iOps q axis) := by ring
      _ ≤ (att iOps x axis - att iOps q axis) *
          (att iOps x axis - att iOps q axis) :=
        mul_self_le_mul_self (by omega) (by omega)
      _ = (att iOps x axis - att iOps q axis) *
          (att iOps x axis - att iOps q axis) := by ring
      _ ≤ distance_metric iOps d x q := hterm
  · calc (att iOps q axis - att iOps item axis) *
          (att iOps q axis - att iOps item axis)
        ≤ (att iOps q axis - att iOps x axis) *
          (att iOps q axis - att iOps x axis) :=
        mul_self_le_mul_self (by omega) (by omega)
      _ = (att iOps x axis - att iOps q axis) *
          (att iOps x axis - att iOps q axis) := by ring
      _ ≤ distance_metric iOps d x q := hterm

theorem kd_nearest_go_complete (d : Nat) (q : Pt Int) :
    ∀ fuel (tree : List (Pt Int)) (axis : Nat) (best : Pt Int × Int),
      tree.length ≤ fuel → axis < d → isKd iOps d tree axis = true →
      ∀ x ∈ tree, (kd_nearest_go iOps d q fuel tree axis best).2 ≤
        distance_metric iOps d x q := by
  intro fuel
  induction fuel with
  | zero =>
    intro tree axis best hlen hax hkd x hx
    have : tree = [] := by cases tree <;> simp_all
    subst this
    simp at hx
  | succ fuel ih =>
    intro tree axis best hlen hax hkd x hx
    cases hsp0 : split_at_mid tree with
    | mk lo0 rest => cases rest with
      | mk xo hi0 => cases xo with
        | none =>
          have : tree = [] := split_at_mid_none hsp0
          subst this
          simp at hx
        | some item =>
          obtain ⟨hlolen, hhilen, hdec, _, _, _⟩ := split_at_mid_some hsp0
          obtain ⟨hbullo, hbulhi, hkdlo, hkdhi⟩ := isKd_split iOps d axis hsp0 hkd
          have hax' : (axis + 1) % d < d := Nat.mod_lt _ (by omega)
          rw [kd_nearest_go_succ_some iOps d q hsp0]
          dsimp only
          set dm := distance_metric iOps d item q with hdm
          set best1 := if iOps.ltB dm best.2 then (item, dm) else best with hbest1
          set diff := iOps.sub (att iOps q axis) (att iOps item axis) with hdiff
          have hdiffv : diff = att iOps q axis - att iOps item axis := rfl
          set best2 := if iOps.isNeg diff
            then kd_nearest_go iOps d q fuel lo0 ((axis + 1) % d) best1
            else kd_nearest_go iOps d q fuel hi0 ((axis + 1) % d) best1 with hbest2
          set far := if iOps.isNeg diff then hi0 else lo0 with hfar
          have hb1dm : best1.2 ≤ dm := by
            rw [hbest1]
            by_cases hc : iOps.ltB dm best.2 = true
            · rw [if_pos hc]
            · rw [if_neg hc]
              have : iOps.ltB dm best.2 = false := by
                cases hv : iOps.ltB dm best.2 with
                | false => rfl
                | true => exact absurd hv hc
              exact ltB_iOps_false.mp this
          have hb2le : best2.2 ≤ best1.2 := by
            rw [hbest2]
            by_cases hn : iOps.isNeg diff = true
            · rw [if_pos hn]
              exact (kd_nearest_go_sound d q fuel lo0 ((axis + 1) % d) best1).2
            · rw [if_neg hn]
              exact (kd_nearest_go_sound d q fuel hi0 ((axis + 1) % d) best1).2
          have hfinal_le_b2 :
              (if iOps.ltB (from_distance_to_metric iOps diff) best2.2 then
                kd_nearest_go iOps d q fuel far ((axis + 1) % d) best2
              else best2).2 ≤ best2.2 := by
            by_cases hp : iOps.ltB (from_distance_to_metric iOps diff) best2.2 = true
            · rw [if_pos hp]
              exact (kd_nearest_go_sound d q fuel far ((axis + 1) % d) best2).2
            · rw [if_neg hp]
          rw [hdec] at hx
          rcases List.mem_append.mp hx with hxlo | hxmid
          · -- x in the lower half
            by_cases hn : iOps.isNeg diff = true
            · -- lower half is the near branch
              have hb2 : best2.2 ≤ distance_metric iOps d x q := by
                rw [hbest2, if_pos hn]
                exact ih lo0 ((axis + 1) % d) best1 (by omega) hax' hkdlo x hxlo
              exact le_trans hfinal_le_b2 hb2
            · -- lower half is the far branch
              have hfe : far = lo0 := by rw [hfar, if_neg hn]
              by_cases hp : iOps.ltB (from_distance_to_metric iOps diff) best2.2 = true
              · rw [if_pos hp, hfe]
                exact ih lo0 ((axis + 1) % d) best2 (by omega) hax' hkdlo x hxlo
              · rw [if_neg hp]
                have hpf : iOps.ltB (from_distance_to_metric iOps diff) best2.2 = false := by
                  cases hv : iOps.ltB (from_distance_to_metric iOps diff) best2.2 with
                  | false => rfl
                  | true => exact absurd hv hp
                have hge : best2.2 ≤ diff * diff := ltB_iOps_false.mp hpf
                have hxle : att iOps x axis ≤ att iOps item axis :=
                  keyCmp_iOps_not_gt.mp (hbullo x hxlo)
                have hqi : att iOps item axis ≤ att iOps q axis := by
                  have : ¬ diff < 0 := fun hc => hn (isNeg_iOps.mpr hc)
                  rw [hdiffv] at this
                  omega
                have := far_bound hax q item x (Or.inr ⟨hqi, hxle⟩)
                rw [← hdiffv] at this
                exact le_trans hge this
          · rcases List.mem_cons.mp hxmid with hxeq | hxhi
            · -- x is the node itself
              subst hxeq
              exact le_trans hfinal_le_b2 (le_trans hb2le hb1dm)
            · -- x in the upper half
              by_cases hn : iOps.isNeg diff = true
              · -- upper half is the far branch
                have hfe : far = hi0 := by rw [hfar, if_pos hn]
                by_cases hp : iOps.ltB (from_distance_to_metric iOps diff) best2.2 = true
                · rw [if_pos hp, hfe]
                  exact ih hi0 ((axis + 1) % d) best2 (by omega) hax' hkdhi x hxhi
                · rw [if_neg hp]
                  have hpf : iOps.ltB (from_distance_to_metric iOps diff) best2.2 = false := by
                    cases hv : iOps.ltB (from_distance_to_metric iOps diff) best2.2 with
                    | false => rfl
                    | true => exact absurd hv hp
                  have hge : best2.2 ≤ diff * diff := ltB_iOps_false.mp hpf
                  have hxge : att iOps item axis ≤ att iOps x axis :=
                    keyCmp_iOps_not_gt.mp (hbulhi x hxhi)
                  have hqi : att iOps q axis < att iOps item axis := by
                    have : diff < 0 := isNeg_iOps.mp hn
                    rw [hdiffv] at this
                    omega
                  have := far_bound hax q item x (Or.inl ⟨hqi, hxge⟩)
                  rw [← hdiffv] at this
                  exact le_trans hge this
              · -- upper half is the near branch
                have hb2 : best2.2 ≤ distance_metric iOps d x q := by
                  rw [hbest2, if_neg hn]
                  exact ih hi0 ((axis + 1) % d) best1 (by omega) hax' hkdhi x hxhi
                exact le_trans hfinal_le_b2 hb2

/-- C1: for every built tree (a list satisfying the ImplicitTree invariant)
and every query point, `nearest` returns an item whose distance metric to the
query equals the minimum distance metric over a brute-force scan of all items
(any exact-tie minimizer is acceptable); on an empty tree it returns `none`
rather than a fault. -/
theorem c1_nearest_correct (d : Nat) (tree : List (Pt Int)) (q : Pt Int)
    (hd : 0 < d) (hkd : isKd iOps d tree 0 = true) :
    (nearest iOps d tree q = none ↔ tree = []) ∧
    ∀ p m, nearest iOps d tree q = some (p, m) →
      p ∈ tree ∧ m = distance_metric iOps d p q ∧
      ∀ x ∈ tree, m ≤ distance_metric iOps d x q := by
  constructor
  · constructor
    · intro h
      by_contra hne
      have hef : tree.isEmpty = false := by
        cases tree with
        | nil => exact absurd rfl hne
        | cons a t => rfl
      unfold nearest at h
      rw [hef] at h
      simp at h
    · intro h
      subst h
      rfl
  · intro p m hsome
    have hne : tree ≠ [] := by
      intro hnil
      subst hnil
      simp [nearest] at hsome
    have hef : tree.isEmpty = false := by
      cases tree with
      | nil => exact absurd rfl hne
      | cons a t => rfl
    unfold nearest at hsome
    rw [hef] at hsome
    simp only [Bool.false_eq_true, if_false] at hsome
    have hkn : kd_nearest iOps d tree q = (p, m) := Option.some.inj hsome
    have hm2 : tree.length / 2 < tree.length := by
      have := List.length_pos.mpr hne
      omega
    have hsp := split_at_mid_of_ne_nil hm2
    obtain ⟨_, _, hdec, _, _, _⟩ := split_at_mid_some hsp
    unfold kd_nearest at hkn
    rw [hsp] at hkn
    dsimp only at hkn
    have hrootmem : tree.get ⟨tree.length / 2, hm2⟩ ∈ tree :=
      tree.get_mem _ hm2
    have hsound := kd_nearest_go_sound d q tree.length tree 0
      (tree.get ⟨tree.length / 2, hm2⟩,
        distance_metric iOps d (tree.get ⟨tree.length / 2, hm2⟩) q)
    have hcomp := kd_nearest_go_complete d q tree.length tree 0
      (tree.get ⟨tree.length / 2, hm2⟩,
        distance_metric iOps d (tree.get ⟨tree.length / 2, hm2⟩) q)
      (le_refl _) hd hkd
    refine ⟨?_, ?_, ?_⟩
    · rcases hsound.1 with hcase | hcase
      · rw [hkn] at hcase
        have hp : p = tree.get ⟨tree.length / 2, hm2⟩ :=
          congrArg Prod.fst hcase
        rw [hp]
        exact hrootmem
      · rw [hkn] at hcase
        exact hcase.1
    · rcases hsound.1 with hcase | hcase
      · rw [hkn] at hcase
        have hp : p = tree.get ⟨tree.length / 2, hm2⟩ :=
          congrArg Prod.fst hcase
        have hm' : m = distance_metric iOps d (tree.get ⟨tree.length / 2, hm2⟩) q :=
          congrArg Prod.snd hcase
        rw [hp, hm']
      · rw [hkn] at hcase
        exact hcase.2
    · intro x hx
      have := hcomp x hx
      rw [hkn] at this
      exact this

theorem c1_witness :
    0 < 3 ∧ isKd iOps 3 [[1,2,3],[2,3,1],[3,1,2]] 0 = true ∧
    nearest iOps 3 [[1,2,3],[2,3,1],[3,1,2]] [3,1,2] = some ([3,1,2], 0) ∧
    (([3,1,2] : Pt Int) ∈ [[1,2,3],[2,3,1],[3,1,2]] ∧
      (0 : Int) = distance_metric iOps 3 [3,1,2] [3,1,2] ∧
      ∀ x ∈ ([[1,2,3],[2,3,1],[3,1,2]] : List (Pt Int)),
        (0 : Int) ≤ distance_metric iOps 3 x [3,1,2]) :=
  ⟨by decide, by decide, by decide,
    (c1_nearest_correct 3 [[1,2,3],[2,3,1],[3,1,2]] [3,1,2]
      (by decide) (by decide)).2 [3,1,2] 0 (by decide)⟩

theorem kd_within_go_succ_some (ops : KOps α) (d : Nat)
    (cmpf : α → Nat → Ordering) (chk : Pt α → Bool)
    {tree lower upper : List (Pt α)} {item : Pt α}
    (hsp : split_at_mid tree = (lower, some item, upper)) (fuel axis : Nat) :
    kd_within_by_cmp_go ops d cmpf chk (fuel+1) tree axis =
      match cmpf (att ops item axis) axis with
      | .eq =>
        (if ((List.range' 1 (d - 1)).map (fun i => (axis + i) % d)).all
              (fun i => cmpf (att ops item i) i == .eq) && chk item
         then [item] else []) ++
        kd_within_by_cmp_go ops d cmpf chk fuel lower ((axis + 1) % d) ++
        kd_within_by_cmp_go ops d cmpf chk fuel upper ((axis + 1) % d)
      | .lt => kd_within_by_cmp_go ops d cmpf chk fuel upper ((axis + 1) % d)
      | .gt => kd_within_by_cmp_go ops d cmpf chk fuel lower ((axis + 1) % d) := by
  conv_lhs => rw [kd_within_by_cmp_go]
  rw [hsp]

theorem range_cycle_all {d axis : Nat} (hax : axis < d) (P : Nat → Bool) :
    (((List.range' 1 (d - 1)).map (fun i => (axis + i) % d)).all P = true ∧
      P axis = true) ↔ (∀ k, k < d → P k = true) := by
  constructor
  · rintro ⟨hall, haxP⟩ k hk
    by_cases hk2 : k = axis
    · subst hk2; exact haxP
    · rcases Nat.lt_or_ge k axis with hlt | hge
      · have hi : (d + k - axis) ∈ List.range' 1 (d - 1) := by
          rw [List.mem_range'_1]
          omega
        have hv := List.all_eq_true.mp hall _ (List.mem_map.mpr ⟨_, hi, rfl⟩)
        have he : (axis + (d + k - axis)) % d = k := by
          have h1 : axis + (d + k - axis) = d + k := by omega
          rw [h1, Nat.add_mod_left]
          exact Nat.mod_eq_of_lt hk
        rw [he] at hv
        exact hv
      · have hi : (k - axis) ∈ List.range' 1 (d - 1) := by
          rw [List.mem_range'_1]
          omega
        have hv := List.all_eq_true.mp hall _ (List.mem_map.mpr ⟨_, hi, rfl⟩)
        have he : (axis + (k - axis)) % d = k := by
          have h1 : axis + (k - axis) = k := by omega
          rw [h1]
          exact Nat.mod_eq_of_lt hk
        rw [he] at hv
        exact hv
  · intro hall
    refine ⟨List.all_eq_true.mpr ?_, hall axis hax⟩
    intro x hx
    obtain ⟨i, _, rfl⟩ := List.mem_map.mp hx
    exact hall _ (Nat.mod_lt _ (by omega))

theorem kd_within_go_spec (d : Nat) (cmpf : Int → Nat → Ordering)
    (chk : Pt Int → Bool)
    (hmono : ∀ k, k < d → ∀ a b : Int, a ≤ b →
      (cmpf b k = .lt → cmpf a k = .lt) ∧ (cmpf a k = .gt → cmpf b k = .gt)) :
    ∀ fuel (tree : List (Pt Int)) axis, tree.length ≤ fuel → axis < d →
      isKd iOps d tree axis = true →
      (kd_within_by_cmp_go iOps d cmpf chk fuel tree axis).Perm
        (tree.filter fun p =>
          ((List.range d).all fun k => cmpf (att iOps p k) k == .eq) && chk p) := by
  intro fuel
  induction fuel with
  | zero =>
    intro tree axis hlen hax hkd
    have : tree = [] := by cases tree <;> simp_all
    subst this
    exact List.Perm.refl _
  | succ fuel ih =>
    intro tree axis hlen hax hkd
    cases hsp0 : split_at_mid tree with
    | mk lo0 rest => cases rest with
      | mk xo hi0 => cases xo with
        | none =>
          have : tree = [] := split_at_mid_none hsp0
          subst this
          exact List.Perm.refl _
        | some item =>
          obtain ⟨hlolen, hhilen, hdec, _, _, _⟩ := split_at_mid_some hsp0
          obtain ⟨hbullo, hbulhi, hkdlo, hkdhi⟩ := isKd_split iOps d axis hsp0 hkd
          have hax' : (axis + 1) % d < d := Nat.mod_lt _ (by omega)
          have ihlo := ih lo0 ((axis + 1) % d) (by omega) hax' hkdlo
          have ihhi := ih hi0 ((axis + 1) % d) (by omega) hax' hkdhi
          rw [kd_within_go_succ_some iOps d cmpf chk hsp0]
          have hfiltree : tree.filter (fun p =>
              ((List.range d).all fun k => cmpf (att iOps p k) k == .eq) && chk p) =
            lo0.filter (fun p =>
              ((List.range d).all fun k => cmpf (att iOps p k) k == .eq) && chk p) ++
            (if ((List.range d).all fun k => cmpf (att iOps item k) k == .eq) && chk item
              then [item] else []) ++
            hi0.filter (fun p =>
              ((List.range d).all fun k => cmpf (att iOps p k) k == .eq) && chk p) := by
            rw [hdec, List.filter_append, List.filter_cons]
            by_cases hP : (((List.range d).all fun k =>
                cmpf (att iOps item k) k == .eq) && chk item) = true
            · rw [if_pos hP, if_pos hP]
              simp
            · rw [if_neg hP, if_neg hP]
              simp
          cases hcm : cmpf (att iOps item axis) axis with
          | eq =>
            have hbhit : (((List.range' 1 (d - 1)).map (fun i => (axis + i) % d)).all
                (fun i => cmpf (att iOps item i) i == .eq) && chk item) =
                (((List.range d).all fun k => cmpf (att iOps item k) k == .eq) &&
                  chk item) := by
              cases hc : chk item
              · simp
              · simp only [Bool.and_true]
                rw [Bool.eq_iff_iff]
                constructor
                · intro h1
                  apply List.all_eq_true.mpr
                  intro k hk
                  exact (range_cycle_all hax
                    (fun k => cmpf (att iOps item k) k == .eq)).mp
                    ⟨h1, by simp only [hcm]; decide⟩ k (List.mem_range.mp hk)
                · intro h1
                  exact ((range_cycle_all hax
                    (fun k => cmpf (att iOps item k) k == .eq)).mpr
                    (fun k hk => List.all_eq_true.mp h1 k (List.mem_range.mpr hk))).1
            dsimp only
            rw [hbhit, hfiltree]
            exact (List.Perm.append (List.Perm.append_left _ ihlo) ihhi).trans
              (List.Perm.append_right _ List.perm_append_comm)
          | lt =>
            dsimp only
            have hPit : (((List.range d).all fun k =>
                cmpf (att iOps item k) k == .eq) && chk item) = false := by
              apply Bool.and_eq_false_iff.mpr
              left
              apply List.all_eq_false.mpr
              refine ⟨axis, List.mem_range.mpr hax, ?_⟩
              simp only [hcm]
              decide
            have hflo : lo0.filter (fun p =>
                ((List.range d).all fun k => cmpf (att iOps p k) k == .eq) && chk p) =
                [] := by
              apply List.filter_eq_nil_iff.mpr
              intro y hy
              have hle : att iOps y axis ≤ att iOps item axis :=
                keyCmp_iOps_not_gt.mp (hbullo y hy)
              have hylt : cmpf (att iOps y axis) axis = .lt :=
                (hmono axis hax _ _ hle).1 hcm
              intro hcontra
              rw [Bool.and_eq_true] at hcontra
              have := List.all_eq_true.mp hcontra.1 axis (List.mem_range.mpr hax)
              rw [hylt] at this
              exact absurd this (by decide)
            rw [hfiltree, hPit, hflo]
            simpa using ihhi
          | gt =>
            dsimp only
            have hPit : (((List.range d).all fun k =>
                cmpf (att iOps item k) k == .eq) && chk item) = false := by
              apply Bool.and_eq_false_iff.mpr
              left
              apply List.all_eq_false.mpr
              refine ⟨axis, List.mem_range.mpr hax, ?_⟩
              simp only [hcm]
              decide
            have hfhi : hi0.filter (fun p =>
                ((List.range d).all fun k => cmpf (att iOps p k) k == .eq) && chk p) =
                [] := by
              apply List.filter_eq_nil_iff.mpr
              intro y hy
              have hle : att iOps item axis ≤ att iOps y axis :=
                keyCmp_iOps_not_gt.mp (hbulhi y hy)
              have hygt : cmpf (att iOps y axis) axis = .gt :=
                (hmono axis hax _ _ hle).2 hcm
              intro hcontra
              rw [Bool.and_eq_true] at hcontra
              have := List.all_eq_true.mp hcontra.1 axis (List.mem_range.mpr hax)
              rw [hygt] at this
              exact absurd this (by decide)
            rw [hfiltree, hPit, hfhi]
            simpa using ihlo

theorem bool_not_true {b : Bool} (h : ¬ b = true) : b = false := by
  cases b
  · rfl
  · exact absurd rfl h

theorem intervalCmp_mono (L H : Nat → Int) (k : Nat) (a b : Int) (hab : a ≤ b) :
    ((if iOps.ltB b (L k) then Ordering.lt
      else if iOps.gtB b (H k) then Ordering.gt else Ordering.eq) = .lt →
     (if iOps.ltB a (L k) then Ordering.lt
      else if iOps.gtB a (H k) then Ordering.gt else Ordering.eq) = .lt) ∧
    ((if iOps.ltB a (L k) then Ordering.lt
      else if iOps.gtB a (H k) then Ordering.gt else Ordering.eq) = .gt →
     (if iOps.ltB b (L k) then Ordering.lt
      else if iOps.gtB b (H k) then Ordering.gt else Ordering.eq) = .gt) := by
  constructor
  · intro hb
    have hblt : iOps.ltB b (L k) = true := by
      by_cases h1 : iOps.ltB b (L k) = true
      · exact h1
      · rw [if_neg h1] at hb
        by_cases h2 : iOps.gtB b (H k) = true
        · rw [if_pos h2] at hb
          exact absurd hb (by decide)
        · rw [if_neg h2] at hb
          exact absurd hb (by decide)
    have : a < L k := lt_of_le_of_lt hab (ltB_iOps.mp hblt)
    rw [if_pos (ltB_iOps.mpr this)]
  · intro ha
    have halt : iOps.ltB a (L k) = false := by
      by_cases h1 : iOps.ltB a (L k) = true
      · rw [if_pos h1] at ha
        exact absurd ha (by decide)
      · exact bool_not_true h1
    have hagt : iOps.gtB a (H k) = true := by
      rw [if_neg (by rw [halt]; exact Bool.false_ne_true)] at ha
      by_cases h2 : iOps.gtB a (H k) = true
      · exact h2
      · rw [if_neg h2] at ha
        exact absurd ha (by decide)
    have h1 : L k ≤ a := ltB_iOps_false.mp halt
    have h2 : H k < a := gtB_iOps.mp hagt
    have hbnl : iOps.ltB b (L k) = false := ltB_iOps_false.mpr (by omega)
    rw [if_neg (by rw [hbnl]; exact Bool.false_ne_true)]
    rw [if_pos (gtB_iOps.mpr (by omega))]

theorem intervalCmp_eq_iff (L H : Nat → Int) (k : Nat) (a : Int) :
    (((if iOps.ltB a (L k) then Ordering.lt
      else if iOps.gtB a (H k) then Ordering.gt else Ordering.eq) ==
        Ordering.eq) = true) ↔ (L k ≤ a ∧ a ≤ H k) := by
  by_cases h1 : iOps.ltB a (L k) = true
  · rw [if_pos h1]
    have := ltB_iOps.mp h1
    exact ⟨fun hc => absurd hc (by decide), fun hc => absurd hc.1 (by omega)⟩
  · rw [if_neg h1]
    have hla : L k ≤ a := ltB_iOps_false.mp (bool_not_true h1)
    by_cases h2 : iOps.gtB a (H k) = true
    · rw [if_pos h2]
      have := gtB_iOps.mp h2
      exact ⟨fun hc => absurd hc (by decide), fun hc => absurd hc.2 (by omega)⟩
    · rw [if_neg h2]
      have hah : a ≤ H k := by
        have : ¬ H k < a := fun hcon => h2 (gtB_iOps.mpr hcon)
        omega
      exact ⟨fun _ => ⟨hla, hah⟩, fun _ => rfl⟩

/-- C3: for every built tree and every corner pair with the first corner
componentwise less-or-equal to the second, the box query returns exactly the
set of items whose coordinate on every axis lies in the closed interval
between the corners — a permutation of (hence set-equal to, independent of
traversal order) the brute-force filter over all items. -/
theorem c3_within_box (d : Nat) (tree : List (Pt Int)) (lo hi : Pt Int)
    (hd : 0 < d) (hkd : isKd iOps d tree 0 = true)
    (hcorners : ∀ k, k < d → att iOps lo k ≤ att iOps hi k) :
    ∃ l, within iOps d tree lo hi = some l ∧
      l.Perm (tree.filter (inBoxB iOps d lo hi)) := by
  have hcond : ((List.range d).all fun k =>
      iOps.leB (att iOps lo k) (att iOps hi k)) = true :=
    List.all_eq_true.mpr fun k hk => leB_iOps.mpr (hcorners k (List.mem_range.mp hk))
  refine ⟨kd_within iOps d tree lo hi, ?_, ?_⟩
  · unfold within
    rw [hcond]
    simp
  · unfold kd_within kd_within_by_cmp
    have hspec := kd_within_go_spec d
      (fun a k => if iOps.ltB a (att iOps lo k) then .lt
        else if iOps.gtB a (att iOps hi k) then .gt else .eq)
      (fun _ => true)
      (fun k _ a b hab =>
        intervalCmp_mono (fun j => att iOps lo j) (fun j => att iOps hi j) k a b hab)
      tree.length tree 0 (le_refl _) hd hkd
    refine hspec.trans ?_
    have hpt : ∀ p ∈ tree,
        (((List.range d).all fun k =>
          ((if iOps.ltB (att iOps p k) (att iOps lo k) then Ordering.lt
            else if iOps.gtB (att iOps p k) (att iOps hi k) then Ordering.gt
            else Ordering.eq) == Ordering.eq)) && true) =
        inBoxB iOps d lo hi p := by
      intro p _
      rw [Bool.and_true]
      unfold inBoxB
      rw [Bool.eq_iff_iff]
      constructor
      · intro h
        apply List.all_eq_true.mpr
        intro k hk
        have h2 := (intervalCmp_eq_iff (fun j => att iOps lo j)
          (fun j => att iOps hi j) k (att iOps p k)).mp
          (List.all_eq_true.mp h k hk)
        rw [Bool.and_eq_true]
        exact ⟨leB_iOps.mpr h2.1, leB_iOps.mpr h2.2⟩
      · intro h
        apply List.all_eq_true.mpr
        intro k hk
        have h2 := List.all_eq_true.mp h k hk
        rw [Bool.and_eq_true] at h2
        exact (intervalCmp_eq_iff (fun j => att iOps lo j)
          (fun j => att iOps hi j) k (att iOps p k)).mpr
          ⟨leB_iOps.mp h2.1, leB_iOps.mp h2.2⟩
    rw [List.filter_congr hpt]

theorem c3_witness :
    0 < 3 ∧ isKd iOps 3 [[1,2,3],[2,3,1],[3,1,2]] 0 = true ∧
    (∀ k, k < 3 → att iOps [1,1,1] k ≤ att iOps [2,3,3] k) ∧
    ∃ l, within iOps 3 [[1,2,3],[2,3,1],[3,1,2]] [1,1,1] [2,3,3] = some l ∧
      l.Perm ([[1,2,3],[2,3,1],[3,1,2]].filter (inBoxB iOps 3 [1,1,1] [2,3,3])) :=
  ⟨by decide, by decide, by decide,
    c3_within_box 3 [[1,2,3],[2,3,1],[3,1,2]] [1,1,1] [2,3,3]
      (by decide) (by decide) (by decide)⟩

/-- C6 counterexample: the claim says a corner pair with the first corner
exceeding the second on some axis is tolerated with no fault; but
`KdSliceN::within` asserts the precondition, so the call faults (modelled by
`none`) on the reversed pair `lo = [1]`, `hi = [0]` over the built tree
`[[5]]`. -/
theorem c6_counterexample :
    (¬ att iOps ([1] : Pt Int) 0 ≤ att iOps ([0] : Pt Int) 0) ∧
    kd_sort_by iOps 1 [[5]] = [[5]] ∧
    within iOps 1 [[5]] [1] [0] = none := by decide

/-- C6 as amended: a corner pair reversed on some axis is rejected, not
tolerated — the wrapper's assertion faults (`none`); the underlying pruning
traversal itself, invoked directly on the reversed box, terminates without
fault and returns the empty result. -/
theorem c6_reversed_corners (d : Nat) (tree : List (Pt Int)) (lo hi : Pt Int)
    (hd : 0 < d) (hkd : isKd iOps d tree 0 = true)
    (hbad : ∃ k, k < d ∧ ¬ att iOps lo k ≤ att iOps hi k) :
    within iOps d tree lo hi = none ∧ kd_within iOps d tree lo hi = [] := by
  obtain ⟨k0, hk0, hbadk⟩ := hbad
  constructor
  · unfold within
    have hcond : ((List.range d).all fun k =>
        iOps.leB (att iOps lo k) (att iOps hi k)) = false :=
      List.all_eq_false.mpr
        ⟨k0, List.mem_range.mpr hk0, fun hc => hbadk (leB_iOps.mp hc)⟩
    rw [hcond]
    simp
  · unfold kd_within kd_within_by_cmp
    have hspec := kd_within_go_spec d
      (fun a k => if iOps.ltB a (att iOps lo k) then .lt
        else if iOps.gtB a (att iOps hi k) then .gt else .eq)
      (fun _ => true)
      (fun k _ a b hab =>
        intervalCmp_mono (fun j => att iOps lo j) (fun j => att iOps hi j) k a b hab)
      tree.length tree 0 (le_refl _) hd hkd
    have hfe : tree.filter (fun p =>
        ((List.range d).all fun k =>
          ((if iOps.ltB (att iOps p k) (att iOps lo k) then Ordering.lt
            else if iOps.gtB (att iOps p k) (att iOps hi k) then Ordering.gt
            else Ordering.eq) == Ordering.eq)) && true) = [] := by
      apply List.filter_eq_nil_iff.mpr
      intro p _
      intro hcontra
      rw [Bool.and_eq_true] at hcontra
      have h2 := (intervalCmp_eq_iff (fun j => att iOps lo j)
        (fun j => att iOps hi j) k0 (att iOps p k0)).mp
        (List.all_eq_true.mp hcontra.1 k0 (List.mem_range.mpr hk0))
      exact hbadk (by omega)
    rw [hfe] at hspec
    exact hspec.eq_nil

theorem c6_witness :
    0 < 1 ∧ isKd iOps 1 [[5]] 0 = true ∧
    (∃ k, k < 1 ∧ ¬ att iOps ([1] : Pt Int) k ≤ att iOps ([0] : Pt Int) k) ∧
    (within iOps 1 [[5]] [1] [0] = none ∧ kd_within iOps 1 [[5]] [1] [0] = []) :=
  ⟨by decide, by decide, ⟨0, by decide, by decide⟩,
    c6_reversed_corners 1 [[5]] [1] [0] (by decide) (by decide)
      ⟨0, by decide, by decide⟩⟩

theorem mul_self_lt_bound {a b : Int} (hb : 0 ≤ b) (h : a * a < b * b) :
    -b < a ∧ a < b := by
  constructor
  · by_contra hc
    push_neg at hc
    have h2 : b ≤ -a := by omega
    have h3 := mul_self_le_mul_self hb h2
    have h4 : (-a) * (-a) = a * a := by ring
    rw [h4] at h3
    exact absurd h (not_lt.mpr h3)
  · by_contra hc
    push_neg at hc
    have h3 := mul_self_le_mul_self hb hc
    exact absurd h (not_lt.mpr h3)

/-- C4 counterexample: the claim quantifies over every radius; with the
negative radius `-1` over the built single-point tree `[[0]]`, the point at
the center has distance metric `0 < (-1) * (-1)` — it is inside the open ball
of the metric-transformed radius — yet the radius query returns the empty
list, because the coarse box query uses the reversed corners
`center - r > center + r`. -/
theorem c4_counterexample :
    kd_sort_by iOps 1 [[0]] = [[0]] ∧ isKd iOps 1 [[0]] 0 = true ∧
    distance_metric iOps 1 [0] [0] < (-1 : Int) * (-1) ∧
    within_radius iOps 1 [[0]] [0] (-1) = [] := by decide

/-- C4 as amended: for every built tree, center, and nonnegative radius `r`,
the radius query returns exactly the set of items whose distance metric to
the center is strictly less than `r * r` (an open ball: items exactly at
distance `r` are excluded), a permutation of the brute-force filter. -/
theorem c4_radius_correct (d : Nat) (tree : List (Pt Int)) (center : Pt Int)
    (r : Int) (hd : 0 < d) (hkd : isKd iOps d tree 0 = true) (hr : 0 ≤ r) :
    (within_radius iOps d tree center r).Perm
      (tree.filter (inBallB iOps d center r)) := by
  unfold within_radius within_by kd_within_by_cmp
  have hspec := kd_within_go_spec d
    (fun a k => if iOps.ltB a (iOps.sub (att iOps center k) r) then .lt
      else if iOps.gtB a (iOps.add (att iOps center k) r) then .gt else .eq)
    (fun _ => true)
    (fun k _ a b hab =>
      intervalCmp_mono (fun j => iOps.sub (att iOps center j) r)
        (fun j => iOps.add (att iOps center j) r) k a b hab)
    tree.length tree 0 (le_refl _) hd hkd
  have hperm2 := hspec.filter
    (fun item => iOps.ltB (distance_metric iOps d item center) (iOps.mul r r))
  refine hperm2.trans ?_
  rw [List.filter_filter]
  have hpt : ∀ p ∈ tree,
      ((iOps.ltB (distance_metric iOps d p center) (iOps.mul r r)) &&
        (((List.range d).all fun k =>
          ((if iOps.ltB (att iOps p k) (iOps.sub (att iOps center k) r)
              then Ordering.lt
            else if iOps.gtB (att iOps p k) (iOps.add (att iOps center k) r)
              then Ordering.gt
            else Ordering.eq) == Ordering.eq)) && true)) =
      inBallB iOps d center r p := by
    intro p _
    unfold inBallB
    by_cases hb : iOps.ltB (distance_metric iOps d p center) (iOps.mul r r) = true
    · rw [hb]
      have hmul : iOps.mul r r = r * r := rfl
      have hball : distance_metric iOps d p center < r * r := by
        have := ltB_iOps.mp hb
        rw [hmul] at this
        exact this
      have hP : ((List.range d).all fun k =>
          ((if iOps.ltB (att iOps p k) (iOps.sub (att iOps center k) r)
              then Ordering.lt
            else if iOps.gtB (att iOps p k) (iOps.add (att iOps center k) r)
              then Ordering.gt
            else Ordering.eq) == Ordering.eq)) = true := by
        apply List.all_eq_true.mpr
        intro k hk
        have hterm := term_le_distance_metric (List.mem_range.mp hk) p center
        have hbnd := mul_self_lt_bound hr (lt_of_le_of_lt hterm hball)
        apply (intervalCmp_eq_iff (fun j => iOps.sub (att iOps center j) r)
          (fun j => iOps.add (att iOps center j) r) k (att iOps p k)).mpr
        have hsub : iOps.sub (att iOps center k) r = att iOps center k - r := rfl
        have hadd : iOps.add (att iOps center k) r = att iOps center k + r := rfl
        rw [hsub, hadd]
        omega
      rw [hP]
      rfl
    · have hbf := bool_not_true hb
      rw [hbf]
      rfl
  rw [List.filter_congr hpt]

theorem c4_witness :
    0 < 1 ∧ isKd iOps 1 [[0],[5]] 0 = true ∧ (0 : Int) ≤ 2 ∧
    (within_radius iOps 1 [[0],[5]] [1] 2).Perm
      ([[0],[5]].filter (inBallB iOps 1 [1] 2)) :=
  ⟨by decide, by decide, by decide,
    c4_radius_correct 1 [[0],[5]] [1] 2 (by decide) (by decide) (by decide)⟩

/-- C2 failing-input evaluation: on the built one-dimensional tree
`[[0],[10],[11]]` with query `[0]` and `k = 3 = n`, `nearests` returns only
2 items instead of 3.  The far-branch recursion condition in `kd_nearests`
(`nearests.last().map_or(true, |max| from_distance_to_metric(diff) < max...)`)
omits the "buffer not yet full" disjunct the spec requires, so the branch
holding `[11]` is pruned while the buffer still has room. -/
theorem c2_eval_failing_input :
    kd_sort_by iOps 1 [[0],[10],[11]] = [[0],[10],[11]] ∧
    isKd iOps 1 [[0],[10],[11]] 0 = true ∧
    nearests iOps 1 [[0],[10],[11]] [0] 3 = [([0], 0), ([10], 100)] ∧
    (nearests iOps 1 [[0],[10],[11]] [0] 3).length = 2 := by decide

/-- C5: with buffer capacity 1, the filter "coordinate above 5", the built
tree `[[1],[10]]` and query `[0]`: the root `[10]` passes the filter and
fills the buffer; the closer candidate `[1]` evicts it before the filter is
checked, then fails the filter, and the evicted entry is not restored — the
returned sequence is empty although one filter-passing item exists, i.e.
strictly fewer than `min(k, number of filter-passing items)` entries. -/
theorem c5_eviction_before_filter :
    kd_sort_by iOps 1 [[10],[1]] = [[1],[10]] ∧
    isKd iOps 1 [[1],[10]] 0 = true ∧
    (([[1],[10]] : List (Pt Int)).filter fun p =>
      decide (5 < att iOps p 0)).length = 1 ∧
    kd_nearests iOps 1 1 (fun p => decide (5 < att iOps p 0)) [[1],[10]] [0] = [] ∧
    (kd_nearests iOps 1 1 (fun p => decide (5 < att iOps p 0))
        [[1],[10]] [0]).length <
      min 1 (([[1],[10]] : List (Pt Int)).filter fun p =>
        decide (5 < att iOps p 0)).length := by decide

theorem insertLe_length (le : β → β → Bool) (x : β) (l : List β) :
    (insertLe le x l).length = l.length + 1 :=
  (insertLe_perm le x l).length_eq

theorem kd_nearests_go_succ_none (ops : KOps α) (d cap : Nat)
    (filt : Pt α → Bool) (q : Pt α) {tree lo hi : List (Pt α)}
    (hsp : split_at_mid tree = (lo, none, hi)) (fuel axis : Nat)
    (buf : List (Pt α × α)) :
    kd_nearests_go ops d cap filt q (fuel+1) tree axis buf = buf := by
  have h : tree = [] := split_at_mid_none hsp
  subst h
  rfl

theorem kd_nearests_go_succ_some (ops : KOps α) (d cap : Nat)
    (filt : Pt α → Bool) (q : Pt α) {tree before after : List (Pt α)}
    {item : Pt α} (hsp : split_at_mid tree = (before, some item, after))
    (fuel axis : Nat) (buf : List (Pt α × α)) :
    kd_nearests_go ops d cap filt q (fuel+1) tree axis buf =
      (let dm := distance_metric ops d item q
       let buf1 :=
         if buf.length < cap ||
             (match buf.getLast? with
              | some worst => ops.ltB dm worst.2
              | none => true) then
           let buf2 := if buf.length == cap then buf.dropLast else buf
           if filt item then insertLe (bufLe ops) (item, dm) buf2 else buf2
         else buf
       let diff := ops.sub (att ops q axis) (att ops item axis)
       let buf3 := if ops.isNeg diff
         then kd_nearests_go ops d cap filt q fuel before ((axis + 1) % d) buf1
         else kd_nearests_go ops d cap filt q fuel after ((axis + 1) % d) buf1
       let far := if ops.isNeg diff then after else before
       if !far.isEmpty &&
           (match buf3.getLast? with
            | some mx => ops.ltB (from_distance_to_metric ops diff) mx.2
            | none => true) then
         kd_nearests_go ops d cap filt q fuel far ((axis + 1) % d) buf3
       else buf3) := by
  conv_lhs => rw [kd_nearests_go]
  rw [hsp]

theorem kd_nearests_go_len (ops : KOps α) (d cap : Nat) (filt : Pt α → Bool)
    (q : Pt α) (hcap : 1 ≤ cap) :
    ∀ fuel (tree : List (Pt α)) (axis : Nat) (buf : List (Pt α × α)),
      buf.length ≤ cap →
      (kd_nearests_go ops d cap filt q fuel tree axis buf).length ≤ cap := by
  intro fuel
  induction fuel with
  | zero => intro tree axis buf hb; exact hb
  | succ fuel ih =>
    intro tree axis buf hb
    cases hsp : split_at_mid tree with
    | mk lo0 rest => cases rest with
      | mk xo hi0 => cases xo with
        | none =>
          rw [kd_nearests_go_succ_none ops d cap filt q hsp]
          exact hb
        | some item =>
          rw [kd_nearests_go_succ_some ops d cap filt q hsp]
          dsimp only
          set dm := distance_metric ops d item q with hdm
          set buf1 :=
            if buf.length < cap ||
                (match buf.getLast? with
                 | some worst => ops.ltB dm worst.2
                 | none => true) then
              (if filt item then
                insertLe (bufLe ops) (item, dm)
                  (if buf.length == cap then buf.dropLast else buf)
              else (if buf.length == cap then buf.dropLast else buf))
            else buf with hbuf1
          have hb1 : buf1.length ≤ cap := by
            rw [hbuf1]
            by_cases hg : (buf.length < cap ||
                (match buf.getLast? with
                 | some worst => ops.ltB dm worst.2
                 | none => true)) = true
            · rw [if_pos hg]
              have hb2 : (if buf.length == cap then buf.dropLast else buf).length + 1
                  ≤ cap := by
                by_cases hc : (buf.length == cap) = true
                · rw [if_pos hc]
                  have he : buf.length = cap := by
                    have := hc
                    rw [Nat.beq_eq_true_eq] at this
                    exact this
                  rw [List.length_dropLast]
                  omega
                · rw [if_neg hc]
                  have hne : buf.length ≠ cap := by
                    intro hcon
                    apply hc
                    rw [Nat.beq_eq_true_eq]
                    exact hcon
                  omega
              by_cases hf : filt item = true
              · rw [if_pos hf, insertLe_length]
                exact hb2
              · rw [if_neg hf]
                omega
            · rw [if_neg hg]
              exact hb
          by_cases hn : ops.isNeg (ops.sub (att ops q axis) (att ops item axis)) = true
          · rw [if_pos hn, if_pos hn]
            have hb3 := ih lo0 ((axis + 1) % d) buf1 hb1
            by_cases hp : (!(hi0.isEmpty) &&
                (match (kd_nearests_go ops d cap filt q fuel lo0 ((axis + 1) % d)
                    buf1).getLast? with
                 | some mx => ops.ltB (from_distance_to_metric ops
                     (ops.sub (att ops q axis) (att ops item axis))) mx.2
                 | none => true)) = true
            · rw [if_pos hp]
              exact ih hi0 ((axis + 1) % d) _ hb3
            · rw [if_neg hp]
              exact hb3
          · rw [if_neg hn, if_neg hn]
            have hb3 := ih hi0 ((axis + 1) % d) buf1 hb1
            by_cases hp : (!(lo0.isEmpty) &&
                (match (kd_nearests_go ops d cap filt q fuel hi0 ((axis + 1) % d)
                    buf1).getLast? with
                 | some mx => ops.ltB (from_distance_to_metric ops
                     (ops.sub (att ops q axis) (att ops item axis))) mx.2
                 | none => true)) = true
            · rw [if_pos hp]
              exact ih lo0 ((axis + 1) % d) _ hb3
            · rw [if_neg hp]
              exact hb3

theorem kd_within_go_mem (ops : KOps α) (d : Nat) (cmpf : α → Nat → Ordering)
    (chk : Pt α → Bool) :
    ∀ fuel (tree : List (Pt α)) (axis : Nat) (x : Pt α),
      x ∈ kd_within_by_cmp_go ops d cmpf chk fuel tree axis → x ∈ tree := by
  intro fuel
  induction fuel with
  | zero => intro tree axis x hx; simp [kd_within_by_cmp_go] at hx
  | succ fuel ih =>
    intro tree axis x hx
    cases hsp : split_at_mid tree with
    | mk lo0 rest => cases rest with
      | mk xo hi0 => cases xo with
        | none =>
          have h : tree = [] := split_at_mid_none hsp
          subst h
          simp [kd_within_by_cmp_go, split_at_mid] at hx
        | some item =>
          obtain ⟨_, _, hdec, _, _, _⟩ := split_at_mid_some hsp
          rw [kd_within_go_succ_some ops d cmpf chk hsp] at hx
          cases hcm : cmpf (att ops item axis) axis with
          | eq =>
            rw [hcm] at hx
            dsimp only at hx
            rcases List.mem_append.mp hx with hx1 | hx2
            · rcases List.mem_append.mp hx1 with hx3 | hx4
              · have hxi : x = item := by
                  by_cases hcond : (((List.range' 1 (d - 1)).map
                      (fun i => (axis + i) % d)).all
                      (fun i => cmpf (att ops item i) i == .eq) && chk item) = true
                  · rw [if_pos hcond] at hx3
                    simpa using hx3
                  · rw [if_neg hcond] at hx3
                    simp at hx3
                rw [hdec, hxi]
                exact List.mem_append_right _ (List.mem_cons_self ..)
              · rw [hdec]
                exact List.mem_append_left _ (ih lo0 ((axis + 1) % d) x hx4)
            · rw [hdec]
              exact List.mem_append_right _
                (List.mem_cons_of_mem _ (ih hi0 ((axis + 1) % d) x hx2))
          | lt =>
            rw [hcm] at hx
            dsimp only at hx
            rw [hdec]
            exact List.mem_append_right _
              (List.mem_cons_of_mem _ (ih hi0 ((axis + 1) % d) x hx))
          | gt =>
            rw [hcm] at hx
            dsimp only at hx
            rw [hdec]
            exact List.mem_append_left _ (ih lo0 ((axis + 1) % d) x hx)

/-- C9: with non-comparable (NaN-like) coordinate values anywhere in the
inputs, building and querying terminate normally — every operation is a total
function of its inputs (the definitions are structurally recursive), the
build returns a rearrangement (permutation) of the input collection, the
single-nearest query returns "no value" exactly on the empty tree and a value
otherwise (never a fault), the k-nearest buffer stays within its capacity
(for a positive capacity; capacity 0 is the contract violation the spec
prescribes to fail fast), and the range traversal only ever returns items of
the tree. -/
theorem c9_nan_safety (d cap : Nat) (items tree : List (Pt FScalar))
    (q : Pt FScalar) (filt : Pt FScalar → Bool)
    (cmpf : FScalar → Nat → Ordering) (chk : Pt FScalar → Bool)
    (hcap : 1 ≤ cap) :
    (kd_sort_by fOps d items).Perm items ∧
    (nearest fOps d tree q).isSome = !tree.isEmpty ∧
    (kd_nearests fOps d cap filt tree q).length ≤ cap ∧
    (∀ x ∈ kd_within_by_cmp fOps d cmpf chk tree, x ∈ tree) := by
  refine ⟨?_, ?_, ?_, ?_⟩
  · exact (kd_sort_go_spec fOps ordHelperLe_fOps_tot ordHelperLe_fOps_trans d
      items.length items 0 (le_refl _)).1
  · cases tree with
    | nil => rfl
    | cons a t =>
      show (nearest fOps d (a :: t) q).isSome = !(a :: t).isEmpty
      unfold nearest
      rw [show (a :: t).isEmpty = false from rfl]
      rfl
  · exact kd_nearests_go_len fOps d cap filt q hcap tree.length tree 0 [] (by simp)
  · intro x hx
    exact kd_within_go_mem fOps d cmpf chk tree.length tree 0 x hx

theorem c9_witness :
    1 ≤ 1 ∧
    ((kd_sort_by fOps 2 [[.num 1, .nan], [.nan, .num 2], [.num 0, .num 5]]).Perm
      [[.num 1, .nan], [.nan, .num 2], [.num 0, .num 5]] ∧
    (nearest fOps 2 [[.num 1, .nan], [.nan, .num 2], [.num 0, .num 5]]
      [.nan, .num 3]).isSome =
        !([[.num 1, .nan], [.nan, .num 2], [.num 0, .num 5]] :
          List (Pt FScalar)).isEmpty ∧
    (kd_nearests fOps 2 1 (fun _ => true)
      [[.num 1, .nan], [.nan, .num 2], [.num 0, .num 5]] [.nan, .num 3]).length ≤ 1 ∧
    (∀ x ∈ kd_within_by_cmp fOps 2 (fun _ _ => Ordering.eq) (fun _ => true)
      [[.num 1, .nan], [.nan, .num 2], [.num 0, .num 5]],
      x ∈ ([[.num 1, .nan], [.nan, .num 2], [.num 0, .num 5]] :
        List (Pt FScalar)))) :=
  ⟨by decide,
    c9_nan_safety 2 1 [[.num 1, .nan], [.nan, .num 2], [.num 0, .num 5]]
      [[.num 1, .nan], [.nan, .num 2], [.num 0, .num 5]]
      [.nan, .num 3] (fun _ => true) (fun _ _ => Ordering.eq) (fun _ => true)
      (by decide)⟩
